import Mathlib

/-
Verification of the engine-slot reconciliation and scan-duration
classification logic of `cxprometheus.py` (class `CxCollector`).

The cache `enginelist` is an insertion-ordered dictionary from keys
"engineId_slotIndex" to slot records
`[eid, ename, econc, escans, eminloc, emaxloc, escanid, estate]`.
We model it as a list of key/slot pairs (`Cache`), the key as the pair
(engineId, slotIndex), and one `collect` pass over fetched `engines` and
`scans` as the function `reconcile` (prune, grow, release, assign, in the
order of the source).  Timestamp strings are modelled by their parse
outcome (`TS.bad` = absent or unparsable, i.e. `strptime` raises;
`TS.ok v` = parses to epoch value `v`), and the per-scan duration
computation of the metrics loop by `classify`.
-/

namespace Cx

/-- One record of the engine list returned by `cxgetengines`. -/
structure Engine where
  id : Int
  name : String
  maxScans : Int
  minLoc : Int
  maxLoc : Int
deriving DecidableEq, Repr

/-- Outcome of `datetime.datetime.strptime(processdatestring(s), fmt).timestamp()`
on one timestamp field: `bad` when the field is absent or unparsable (the
call raises), `ok v` when it parses to the epoch value `v`. -/
inductive TS where
  | bad : TS
  | ok : ℚ → TS
deriving DecidableEq, Repr

/-- One record of the scans queue returned by `cxgetscansqueue`:
id, stage id, optional engine reference id, and the four timestamp fields. -/
structure Scan where
  id : Int
  stageId : Int
  engine : Option Int
  dateCreated : TS
  queuedOn : TS
  engineStartedOn : TS
  completedOn : TS
deriving DecidableEq, Repr

/-- One cached slot value
`[eid, ename, econc, escans, eminloc, emaxloc, escanid, estate]`. -/
structure Slot where
  eid : Int
  ename : String
  econc : Nat
  escans : String
  eminloc : String
  emaxloc : String
  escanid : Int
  estate : String
deriving DecidableEq, Repr

/-- Cache key: the pair (engine id, slot index) encoded in the source as
the string `str(engine["id"]) + "_" + str(idx)`. -/
abbrev Key := Int × Nat

/-- The `enginelist` ordered dictionary: insertion-ordered key/slot pairs. -/
abbrev Cache := List (Key × Slot)

/-- Prune test for one cached key: some engine of the current list has a
matching id and reports `maxScans` at least the slot index
(the inner loop of the removal `while` loop). -/
def prunePred (engines : List Engine) (k : Key) : Bool :=
  engines.any fun e => e.id == k.1 && (k.2 : Int) ≤ e.maxScans

/-- The removal loop: every cached key failing `prunePred` is popped;
relative order of survivors is preserved. -/
def prune (engines : List Engine) (c : Cache) : Cache :=
  c.filter fun p => prunePred engines p.1

/-- Fresh slot record created by the grow loop. -/
def newSlot (e : Engine) (idx : Nat) : Slot :=
  { eid := e.id, ename := e.name, econc := idx, escans := toString e.maxScans,
    eminloc := toString e.minLoc, emaxloc := toString e.maxLoc,
    escanid := 0, estate := "Idle" }

/-- `iengx in self.enginelist.keys()`. -/
def hasKey (c : Cache) (k : Key) : Bool :=
  c.any fun p => p.1 == k

/-- Inner grow loop for one engine: `idx` runs 1, 2, ..., `maxScans`
(no iterations when `maxScans ≤ 0`), appending a fresh Idle slot for every
key not yet present. -/
def growEngine (e : Engine) (c : Cache) : Cache :=
  (List.range e.maxScans.toNat).foldl
    (fun acc j =>
      if hasKey acc (e.id, j + 1) then acc
      else acc ++ [((e.id, j + 1), newSlot e (j + 1))])
    c

/-- The grow loop over the current engine list. -/
def grow (engines : List Engine) (c : Cache) : Cache :=
  engines.foldl (fun acc e => growEngine e acc) c

/-- `scanengineid`: the id of the scan's engine reference, 0 when the
reference is null. -/
def scanEngineId (sc : Scan) : Int :=
  match sc.engine with
  | some g => g
  | none => 0

/-- Stage in the active range 3..6. -/
def activeStage (n : Int) : Bool :=
  3 ≤ n && n ≤ 6

/-- Search of the release loop: some scan of the snapshot has the slot's
assigned scan id, an active stage, and a resolved engine id equal to the
slot's engine id. -/
def keepAssign (scans : List Scan) (sl : Slot) : Bool :=
  scans.any fun sc =>
    sc.id == sl.escanid && activeStage sc.stageId && scanEngineId sc == sl.eid

/-- Reset of a stale slot: `iengine[6] = 0; iengine[7] = "Idle"`. -/
def resetSlot (sl : Slot) : Slot :=
  { sl with escanid := 0, estate := "Idle" }

/-- The release loop over all cached slots. -/
def release (scans : List Scan) (c : Cache) : Cache :=
  c.map fun p => if keepAssign scans p.2 then p else (p.1, resetSlot p.2)

/-- Update the first slot of the cache satisfying `p` (the `break` of the
loops in `setenginescan`); identity when no slot matches. -/
def updateFirst (p : Slot → Bool) (f : Slot → Slot) : Cache → Cache
  | [] => []
  | x :: rest =>
    if p x.2 then (x.1, f x.2) :: rest else x :: updateFirst p f rest

/-- Slot test of the first `setenginescan` loop (and, with `X = 0`, of the
second loop): engine id matches and the assigned scan id equals `X`. -/
def pairP (X E : Int) (sl : Slot) : Bool :=
  sl.eid == E && sl.escanid == X

/-- Some slot of engine `E` already carries scan id `X`. -/
def hasPair (c : Cache) (X E : Int) : Bool :=
  c.any fun x => pairP X E x.2

/-- Some slot of engine `E` is free (`assignedScanId == 0`). -/
def hasFree (c : Cache) (E : Int) : Bool :=
  c.any fun x => pairP 0 E x.2

/-- `CxCollector.setenginescan`: if some slot of the engine already carries
the scan id, only that (first such) slot's status is updated; otherwise the
first free slot of the engine, if any, receives the scan id and status. -/
def setenginescan (c : Cache) (scanid engineid : Int) (scanstatus : String) : Cache :=
  if hasPair c scanid engineid then
    updateFirst (pairP scanid engineid) (fun sl => { sl with estate := scanstatus }) c
  else
    updateFirst (pairP 0 engineid)
      (fun sl => { sl with escanid := scanid, estate := scanstatus }) c

/-- Engine-visible status of a scan stage: `Queued` for stage 3, `Scanning`
for stages 4..6, `Idle` otherwise. -/
def engineStatus (n : Int) : String :=
  if n == 3 then "Queued"
  else if 4 ≤ n && n ≤ 6 then "Scanning"
  else "Idle"

/-- Body of the assignment loop for one scan: guarded by
`scanid > 0 and scanengineid > 0` and by a non-`Idle` computed status. -/
def assignScan (c : Cache) (sc : Scan) : Cache :=
  if 0 < sc.id && 0 < scanEngineId sc then
    if engineStatus sc.stageId == "Idle" then c
    else setenginescan c sc.id (scanEngineId sc) (engineStatus sc.stageId)
  else c

/-- The assignment loop over the scan snapshot. -/
def assign (scans : List Scan) (c : Cache) : Cache :=
  scans.foldl assignScan c

/-- One reconciliation pass of `CxCollector.collect` over the two fetched
snapshots: prune, grow, release stale assignments, assign scans. -/
def reconcile (c : Cache) (engines : List Engine) (scans : List Scan) : Cache :=
  assign scans (release scans (grow engines (prune engines c)))

/-- `scanini` of the queued/scanning branches: parsed epoch value, `0.0`
when the `strptime` call raises (caught by the surrounding `try`). -/
def tsParse : TS → ℚ
  | TS.bad => 0
  | TS.ok v => v

/-- `scanend` of the scanning branch: parsed completion epoch, `scannow`
when absent or unparsable. -/
def effEnd (t : TS) (now : ℚ) : ℚ :=
  match t with
  | TS.bad => now
  | TS.ok v => v

/-- Duration samples computed for one scan by the metrics loop
(values in minutes; `none` = sample not emitted). -/
structure Durations where
  full : Option ℚ
  pulling : Option ℚ
  queued : Option ℚ
  scanning : Option ℚ
deriving DecidableEq, Repr

/-- Duration computation of the metrics loop for one scan.  Returns `none`
when the unguarded `strptime` on `dateCreated` raises, aborting the whole
pass.  The pulling/queued/scanning branches form an `elif` chain on
pairwise disjoint stage sets, so they are written as independent guards. -/
def classify (sc : Scan) (now : ℚ) : Option Durations :=
  match sc.dateCreated with
  | TS.bad => none
  | TS.ok scannew =>
    some
      { full :=
          if sc.stageId == 10 || (1 ≤ sc.stageId && sc.stageId ≤ 6) then
            some ((now - scannew) / 60)
          else none
        pulling :=
          if sc.stageId == 1 || sc.stageId == 2 || sc.stageId == 10 then
            some ((now - scannew) / 60)
          else none
        queued :=
          if sc.stageId == 3 then
            if 0 < tsParse sc.queuedOn then
              some ((now - tsParse sc.queuedOn) / 60)
            else none
          else none
        scanning :=
          if 4 ≤ sc.stageId && sc.stageId ≤ 6 then
            if 0 < tsParse sc.engineStartedOn then
              some ((effEnd sc.completedOn now - tsParse sc.engineStartedOn) / 60)
            else none
          else none }

/-- The whole metrics loop over the scan snapshot: aborts (exception
escapes `collect`, nothing is served) at the first scan whose
`dateCreated` does not parse. -/
def classifyAll (scans : List Scan) (now : ℚ) : Option (List Durations) :=
  match scans with
  | [] => some []
  | sc :: rest =>
    match classify sc now with
    | none => none
    | some d =>
      match classifyAll rest now with
      | none => none
      | some ds => some (d :: ds)

/-- Guard under which the assignment loop registers a scan in the cache:
positive scan id, positive resolved engine id, non-`Idle` computed status. -/
def relevant (sc : Scan) : Bool :=
  0 < sc.id && 0 < scanEngineId sc && !(engineStatus sc.stageId == "Idle")

/-- Index of the first slot of the cache satisfying `p`. -/
def firstHit (p : Slot → Bool) : Cache → Option Nat
  | [] => none
  | x :: rest => if p x.2 then some 0 else (firstHit p rest).map (· + 1)

/-- Status of the last scan of the list that the assignment loop registers
with id `X` on engine `E` (`none` when there is no such scan). -/
def lastStatus : List Scan → Int → Int → Option String
  | [], _, _ => none
  | sc :: T, X, E =>
    match lastStatus T X E with
    | some s => some s
    | none =>
      if relevant sc && sc.id == X && scanEngineId sc == E then
        some (engineStatus sc.stageId)
      else none

/-- Some scan of the list is registered by the assignment loop with id `X`
on engine `E`. -/
def occursScan (T : List Scan) (X E : Int) : Bool :=
  T.any fun sc => relevant sc && sc.id == X && scanEngineId sc == E

/-- Replace the estates of a cache pointwise by the given list. -/
def patch (c : Cache) (es : List String) : Cache :=
  List.zipWith (fun x e => (x.1, { x.2 with estate := e })) c es

/-- The estates of a cache. -/
def estates (c : Cache) : List String :=
  c.map fun x => x.2.estate

/-- The (engine id, assigned scan id) projection of a cache, the only slot
data the `setenginescan` searches read. -/
def pairProj (c : Cache) : List (Int × Int) :=
  c.map fun x => (x.2.eid, x.2.escanid)

/-- Conservation property of one cached slot against a scan snapshot:
positive engine id; a nonzero assignment is justified by an active scan of
that engine; a free slot is `Idle`. -/
def slotOk (scans : List Scan) (p : Key × Slot) : Prop :=
  0 < p.2.eid ∧
  (p.2.escanid ≠ 0 →
    ∃ sc ∈ scans, sc.id = p.2.escanid ∧ activeStage sc.stageId = true ∧
      sc.engine = some p.2.eid) ∧
  (p.2.escanid = 0 → p.2.estate = "Idle")

/-- No two slots of one engine carry the same nonzero assigned scan id. -/
def UniqueAssign (c : Cache) : Prop :=
  (pairProj c).Pairwise fun a b => ¬(a.1 = b.1 ∧ a.2 = b.2 ∧ a.2 ≠ 0)

/-- A timestamp field whose parsed value, if it parses at all, is at most
`n` ("`now` is sampled after the stored timestamps"). -/
def tsLe (t : TS) (n : ℚ) : Prop :=
  ∀ v, t = TS.ok v → v ≤ n

instance (t : TS) (n : ℚ) : Decidable (tsLe t n) :=
  match t with
  | TS.bad => isTrue (fun v h => by cases h)
  | TS.ok w =>
    if h : w ≤ n then
      isTrue (fun v hv => by cases hv; exact h)
    else
      isFalse (fun hall => h (hall w rfl))

/- Concrete records used by counterexamples and witnesses. -/

/-- A two-slot engine, id 1. -/
def engA : Engine :=
  { id := 1, name := "EngineOne", maxScans := 2, minLoc := 0, maxLoc := 999999999 }

/-- A busy cached slot of engine 1 with an active assignment. -/
def slotBusy : Slot :=
  { eid := 1, ename := "EngineOne", econc := 1, escans := "2", eminloc := "0",
    emaxloc := "999999999", escanid := 5, estate := "Scanning" }

/-- A well-formed scanning-stage scan: every timestamp it needs parses. -/
def scanOkA : Scan :=
  { id := 5, stageId := 4, engine := some 1, dateCreated := TS.ok 10,
    queuedOn := TS.ok 20, engineStartedOn := TS.ok 30, completedOn := TS.bad }

/-- A scan whose creation timestamp is absent or unparsable. -/
def scanBadCreated : Scan :=
  { id := 6, stageId := 4, engine := some 1, dateCreated := TS.bad,
    queuedOn := TS.ok 20, engineStartedOn := TS.ok 30, completedOn := TS.bad }

/-- A scan whose parsable completion timestamp precedes its parsable
engine-start timestamp (both well before `now = 200`). -/
def scanNegScanning : Scan :=
  { id := 7, stageId := 4, engine := some 1, dateCreated := TS.ok 10,
    queuedOn := TS.bad, engineStartedOn := TS.ok 100, completedOn := TS.ok 40 }

/-- A scan whose engine-start timestamp parses, but to epoch value 0. -/
def scanEpochZero : Scan :=
  { id := 8, stageId := 4, engine := some 1, dateCreated := TS.ok 10,
    queuedOn := TS.bad, engineStartedOn := TS.ok 0, completedOn := TS.bad }

/-- Durations emitted for `scanOkA` at `now = 200`. -/
def outOkA : Durations :=
  { full := some (19 / 6), pulling := none, queued := none, scanning := some (17 / 6) }

/-- An engine of id 1 currently reporting no concurrency capacity. -/
def engZero : Engine :=
  { id := 1, name := "EngineOne", maxScans := 0, minLoc := 0, maxLoc := 999999999 }

/-- A free cached slot of engine 1. -/
def slotFree : Slot :=
  { eid := 1, ename := "EngineOne", econc := 0, escans := "0", eminloc := "0",
    emaxloc := "999999999", escanid := 0, estate := "Idle" }

/- ------------------------------------------------------------------ -/
/- Theorems                                                           -/
/- ------------------------------------------------------------------ -/

theorem assignScan_nil (sc : Scan) : assignScan [] sc = [] := by
  simp [assignScan, setenginescan, hasPair, updateFirst]

theorem assign_nil (scans : List Scan) : assign scans [] = [] := by
  induction scans with
  | nil => rfl
  | cons sc rest ih =>
    simp [assign] at ih ⊢
    rw [assignScan_nil, ih]

/-- C1 (counterexample): on a pass with an empty engine list the cached
slot does not survive with its key and metadata intact: the returned
cache is empty although the previous cache was not. -/
theorem C1_counterexample :
    reconcile [((1, 1), slotBusy)] [] [] = [] ∧
    [((1, 1), slotBusy)] ≠ ([] : Cache) := by
  constructor
  · rfl
  · simp

/-- C1 (amended): on a pass where the engine list comes back empty, every
cached key fails the prune test, so the whole slot cache is deleted: the
pass returns an empty cache whatever the previous cache and the scan list
were, instead of retaining the slots with their assignments reset. -/
theorem C1_empty_engines (c : Cache) (S : List Scan) :
    reconcile c [] S = [] := by
  have hp : prune [] c = [] := by
    simp [prune, prunePred]
  rw [reconcile, hp]
  show assign S (release S []) = []
  rw [show release S [] = [] from rfl, assign_nil]

/-- C2 (counterexample): a scan whose creation timestamp is absent or
unparsable makes the pass raise (`classify` returns `none`), and the
samples of every other scan of the pass are lost with it
(`classifyAll` returns `none`), contrary to the claim that no timestamp
failure escapes and all other samples are still emitted. -/
theorem C2_counterexample :
    classify scanBadCreated 100 = none ∧
    classifyAll [scanOkA, scanBadCreated] 100 = none ∧
    scanOkA.dateCreated ≠ TS.bad := by
  refine ⟨rfl, ?_, by decide⟩
  rfl

/-- C2 (amended): an absent or unparsable queued-at or engine-start
timestamp never raises: only the queued (resp. scanning) sample of the
affected scan is omitted and everything else is unchanged; an absent or
unparsable completion timestamp never raises and changes at most the
scanning sample; but an absent or unparsable creation timestamp makes the
collection pass raise. -/
theorem C2_amended (sc : Scan) (now d : ℚ) (h : sc.dateCreated = TS.ok d) :
    classify { sc with dateCreated := TS.bad } now = none ∧
    ∃ out, classify sc now = some out ∧
      classify { sc with queuedOn := TS.bad } now = some { out with queued := none } ∧
      classify { sc with engineStartedOn := TS.bad } now = some { out with scanning := none } ∧
      ∃ out2, classify { sc with completedOn := TS.bad } now = some out2 ∧
        out2.full = out.full ∧ out2.pulling = out.pulling ∧ out2.queued = out.queued := by
  obtain ⟨i, st, g, dc, q, es, co⟩ := sc
  simp only at h
  subst h
  refine ⟨rfl, _, rfl, ?_, ?_, _, rfl, rfl, rfl, rfl⟩
  · simp [classify, tsParse]
  · simp [classify, tsParse]

/-- C2 (witness): the amended failure-semantics theorem applied to
`scanOkA` at `now = 100`. -/
theorem C2_witness :
    classify { scanOkA with dateCreated := TS.bad } 100 = none :=
  (C2_amended scanOkA 100 10 rfl).1

/-- C6 (counterexample): with every stored timestamp at most `now = 200`,
the emitted scanning duration is `(40 - 100) / 60 = -1 < 0`: a parsable
completion time earlier than the engine-start time yields a negative
sample. -/
theorem C6_counterexample :
    classify scanNegScanning 200 =
      some { full := some (19 / 6), pulling := none, queued := none,
             scanning := some (-1) } ∧
    tsLe scanNegScanning.dateCreated 200 ∧
    tsLe scanNegScanning.queuedOn 200 ∧
    tsLe scanNegScanning.engineStartedOn 200 ∧
    tsLe scanNegScanning.completedOn 200 ∧
    ((-1 : ℚ) < 0) := by
  refine ⟨?_, by decide, by decide, by decide, by decide, by norm_num⟩
  norm_num [classify, scanNegScanning, tsParse, effEnd]

/-- C6 (amended): when every parsed timestamp is at most `now`, the
emitted full, pulling and queued durations are nonnegative, and the
scanning duration is nonnegative provided additionally that the parsed
completion time (when the completion timestamp parses) is at least the
parsed engine-start time. -/
theorem C6_amended (sc : Scan) (now : ℚ)
    (h1 : tsLe sc.dateCreated now) (h2 : tsLe sc.queuedOn now)
    (h3 : tsLe sc.engineStartedOn now)
    (h4 : ∀ es ce, sc.engineStartedOn = TS.ok es → sc.completedOn = TS.ok ce → es ≤ ce)
    (out : Durations) (hout : classify sc now = some out) :
    (∀ q, out.full = some q → 0 ≤ q) ∧
    (∀ q, out.pulling = some q → 0 ≤ q) ∧
    (∀ q, out.queued = some q → 0 ≤ q) ∧
    (∀ q, out.scanning = some q → 0 ≤ q) := by
  obtain ⟨i, st, g, dc, qo, es, co⟩ := sc
  cases dc with
  | bad => exact absurd hout (by simp [classify])
  | ok d =>
    have hd : d ≤ now := h1 d rfl
    simp only [classify] at hout
    replace hout := Option.some.inj hout
    subst hout
    refine ⟨?_, ?_, ?_, ?_⟩
    · intro q hq
      simp only at hq
      split at hq
      next =>
        injection hq with hq
        subst hq
        exact div_nonneg (by linarith) (by norm_num)
      next => exact Option.noConfusion hq
    · intro q hq
      simp only at hq
      split at hq
      next =>
        injection hq with hq
        subst hq
        exact div_nonneg (by linarith) (by norm_num)
      next => exact Option.noConfusion hq
    · intro q hq
      simp only at hq
      split at hq
      next =>
        split at hq
        next h0 =>
          injection hq with hq
          subst hq
          have hle : tsParse qo ≤ now := by
            cases qo with
            | bad => exact absurd h0 (by norm_num [tsParse])
            | ok v => exact h2 v rfl
          exact div_nonneg (by linarith) (by norm_num)
        next => exact Option.noConfusion hq
      next => exact Option.noConfusion hq
    · intro q hq
      simp only at hq
      split at hq
      next =>
        split at hq
        next h0 =>
          injection hq with hq
          subst hq
          have hend : tsParse es ≤ effEnd co now := by
            cases es with
            | bad => exact absurd h0 (by norm_num [tsParse])
            | ok v =>
              cases co with
              | bad =>
                simpa [tsParse, effEnd] using h3 v rfl
              | ok ce =>
                simpa [tsParse, effEnd] using h4 v ce rfl rfl
          exact div_nonneg (by linarith) (by norm_num)
        next => exact Option.noConfusion hq
      next => exact Option.noConfusion hq

/-- C6 (witness): the amended nonnegativity theorem applied to `scanOkA`
at `now = 200`: the emitted full duration `19/6` is nonnegative. -/
theorem C6_witness : (0 : ℚ) ≤ 19 / 6 :=
  (C6_amended scanOkA 200 (by decide) (by decide) (by decide)
      (fun es ce hes hce => by simp [scanOkA] at hce)
      outOkA (by norm_num [classify, scanOkA, outOkA, tsParse, effEnd])).1
    (19 / 6) rfl

/-- C7 (counterexample): a scanning-stage scan whose engine-start
timestamp parses (to epoch 0) gets no scanning sample, although the claim
requires one exactly when the stage is 4..6 and the timestamp parses. -/
theorem C7_counterexample :
    scanEpochZero.engineStartedOn ≠ TS.bad ∧
    (4 ≤ scanEpochZero.stageId ∧ scanEpochZero.stageId ≤ 6) ∧
    classify scanEpochZero 200 =
      some { full := some (19 / 6), pulling := none, queued := none,
             scanning := none } := by
  refine ⟨by decide, by decide, ?_⟩
  norm_num [classify, scanEpochZero, tsParse, effEnd]

/-- C7 (amended): a scanning sample is emitted exactly when the stage is
in 4..6 and the engine-start timestamp parses to a strictly positive
epoch value; its value is then `effectiveEnd - engineStartedAt` minutes,
where `effectiveEnd` is the completion timestamp when it parses and `now`
otherwise. -/
theorem C7_amended (sc : Scan) (now : ℚ) (out : Durations)
    (hout : classify sc now = some out) :
    (out.scanning.isSome ↔
      (4 ≤ sc.stageId ∧ sc.stageId ≤ 6 ∧
        ∃ v, sc.engineStartedOn = TS.ok v ∧ 0 < v)) ∧
    (∀ v, sc.engineStartedOn = TS.ok v → 0 < v →
      4 ≤ sc.stageId → sc.stageId ≤ 6 →
      out.scanning = some ((effEnd sc.completedOn now - v) / 60)) := by
  obtain ⟨i, st, g, dc, qo, es, co⟩ := sc
  cases dc with
  | bad => exact absurd hout (by simp [classify])
  | ok d =>
    simp only [classify] at hout
    replace hout := Option.some.inj hout
    subst hout
    constructor
    · constructor
      · intro h
        obtain ⟨q, hq⟩ := Option.isSome_iff_exists.mp h
        simp only at hq
        split at hq
        next hst =>
          split at hq
          next h0 =>
            simp only [Bool.and_eq_true, decide_eq_true_eq] at hst
            refine ⟨hst.1, hst.2, ?_⟩
            cases es with
            | bad => exact absurd h0 (by norm_num [tsParse])
            | ok v => exact ⟨v, rfl, by simpa [tsParse] using h0⟩
          next => exact Option.noConfusion hq
        next => exact Option.noConfusion hq
      · rintro ⟨h4, h6, v, hv, h0⟩
        subst hv
        simp [tsParse, h4, h6, h0]
    · intro v hv h0 h4 h6
      subst hv
      simp [tsParse, h4, h6, h0]

/-- C7 (witness): the amended rule applied to `scanOkA` at `now = 200`. -/
theorem C7_witness :
    outOkA.scanning = some ((effEnd scanOkA.completedOn 200 - 30) / 60) :=
  (C7_amended scanOkA 200 outOkA
      (by norm_num [classify, scanOkA, outOkA, tsParse, effEnd])).2 30 rfl
    (by norm_num) (by decide) (by decide)

/-- C9: the queued (resp. scanning) sample is emitted only when the
parsed queued-at (resp. engine-start) timestamp is strictly positive, and
a timestamp parsing to an epoch value at most 0 yields exactly the same
classification as a parse failure. -/
theorem C9_positive_epoch_guard (sc : Scan) (now : ℚ) :
    (∀ v, v ≤ 0 → classify { sc with queuedOn := TS.ok v } now
        = classify { sc with queuedOn := TS.bad } now) ∧
    (∀ v, v ≤ 0 → classify { sc with engineStartedOn := TS.ok v } now
        = classify { sc with engineStartedOn := TS.bad } now) ∧
    (∀ out, classify sc now = some out →
      (out.queued.isSome → ∃ v, sc.queuedOn = TS.ok v ∧ 0 < v) ∧
      (out.scanning.isSome → ∃ v, sc.engineStartedOn = TS.ok v ∧ 0 < v)) := by
  obtain ⟨i, st, g, dc, qo, es, co⟩ := sc
  have hnot : ∀ v : ℚ, v ≤ 0 → ¬ (0 : ℚ) < v := fun v hv => not_lt.mpr hv
  refine ⟨?_, ?_, ?_⟩
  · intro v hv
    cases dc with
    | bad => rfl
    | ok d => simp [classify, tsParse, hnot v hv, lt_irrefl]
  · intro v hv
    cases dc with
    | bad => rfl
    | ok d => simp [classify, tsParse, hnot v hv, lt_irrefl]
  · intro out hout
    cases dc with
    | bad => exact absurd hout (by simp [classify])
    | ok d =>
      simp only [classify] at hout
      replace hout := Option.some.inj hout
      subst hout
      constructor
      · intro h
        obtain ⟨q, hq⟩ := Option.isSome_iff_exists.mp h
        simp only at hq
        split at hq
        next =>
          split at hq
          next h0 =>
            cases qo with
            | bad => exact absurd h0 (by norm_num [tsParse])
            | ok v => exact ⟨v, rfl, by simpa [tsParse] using h0⟩
          next => exact Option.noConfusion hq
        next => exact Option.noConfusion hq
      · intro h
        obtain ⟨q, hq⟩ := Option.isSome_iff_exists.mp h
        simp only at hq
        split at hq
        next =>
          split at hq
          next h0 =>
            cases es with
            | bad => exact absurd h0 (by norm_num [tsParse])
            | ok v => exact ⟨v, rfl, by simpa [tsParse] using h0⟩
          next => exact Option.noConfusion hq
        next => exact Option.noConfusion hq

/-- C9 (witness): an engine-start timestamp parsing to epoch 0 classifies
exactly like an unparsable one, for `scanOkA` at `now = 200`. -/
theorem C9_witness :
    classify { scanOkA with engineStartedOn := TS.ok 0 } 200
      = classify { scanOkA with engineStartedOn := TS.bad } 200 :=
  (C9_positive_epoch_guard scanOkA 200).2.1 0 le_rfl

/- ------------------------------------------------------------------ -/
/- Toolkit: updateFirst, firstHit, patch                              -/
/- ------------------------------------------------------------------ -/

theorem updateFirst_length (p : Slot → Bool) (f : Slot → Slot) (c : Cache) :
    (updateFirst p f c).length = c.length := by
  induction c with
  | nil => rfl
  | cons x rest ih =>
    by_cases h : p x.2 = true
    · simp [updateFirst, h]
    · simp [updateFirst, h, ih]

theorem updateFirst_map_fst (p : Slot → Bool) (f : Slot → Slot) (c : Cache) :
    (updateFirst p f c).map Prod.fst = c.map Prod.fst := by
  induction c with
  | nil => rfl
  | cons x rest ih =>
    by_cases h : p x.2 = true
    · simp [updateFirst, h]
    · simp [updateFirst, h, ih]

theorem firstHit_none_iff (p : Slot → Bool) (c : Cache) :
    firstHit p c = none ↔ (c.any fun x => p x.2) = false := by
  induction c with
  | nil => simp [firstHit]
  | cons x rest ih =>
    by_cases h : p x.2 = true
    · simp [firstHit, h]
    · simp [firstHit, h, ih, Option.map_eq_none']

theorem updateFirst_of_firstHit_none (p : Slot → Bool) (f : Slot → Slot)
    (c : Cache) (h : firstHit p c = none) : updateFirst p f c = c := by
  induction c with
  | nil => rfl
  | cons x rest ih =>
    by_cases hx : p x.2 = true
    · simp [firstHit, hx] at h
    · simp only [firstHit, hx, if_neg] at h
      simp only [Bool.false_eq_true, if_false, Option.map_eq_none'] at h
      simp [updateFirst, hx, ih h]

theorem firstHit_get? (p : Slot → Bool) (c : Cache) (i : Nat)
    (h : firstHit p c = some i) :
    ∃ x, c.get? i = some x ∧ p x.2 = true := by
  induction c generalizing i with
  | nil => simp [firstHit] at h
  | cons y rest ih =>
    by_cases hy : p y.2 = true
    · simp only [firstHit, hy, if_pos, Option.some.injEq] at h
      subst h
      exact ⟨y, rfl, hy⟩
    · simp only [firstHit, hy, Bool.false_eq_true, if_false,
        Option.map_eq_some'] at h
      obtain ⟨j, hj, rfl⟩ := h
      obtain ⟨x, hx, hpx⟩ := ih j hj
      exact ⟨x, by simpa using hx, hpx⟩

theorem firstHit_min (p : Slot → Bool) (c : Cache) (i : Nat)
    (h : firstHit p c = some i) :
    ∀ j x, j < i → c.get? j = some x → p x.2 = false := by
  induction c generalizing i with
  | nil => simp [firstHit] at h
  | cons y rest ih =>
    by_cases hy : p y.2 = true
    · simp only [firstHit, hy, if_pos, Option.some.injEq] at h
      subst h
      intro j x hj
      exact absurd hj (Nat.not_lt_zero j)
    · simp only [firstHit, hy, Bool.false_eq_true, if_false,
        Option.map_eq_some'] at h
      obtain ⟨k, hk, rfl⟩ := h
      intro j x hj hx
      cases j with
      | zero =>
        cases hx
        exact Bool.eq_false_iff.mpr hy
      | succ j =>
        exact ih k hk j x (Nat.lt_of_succ_lt_succ hj) (by simpa using hx)

theorem updateFirst_get? (p : Slot → Bool) (f : Slot → Slot) (c : Cache)
    (i : Nat) (h : firstHit p c = some i) (j : Nat) :
    (updateFirst p f c).get? j =
      if j = i then (c.get? j).map (fun x => (x.1, f x.2)) else c.get? j := by
  induction c generalizing i j with
  | nil => simp [firstHit] at h
  | cons y rest ih =>
    by_cases hy : p y.2 = true
    · simp only [firstHit, hy, if_pos, Option.some.injEq] at h
      subst h
      cases j with
      | zero => simp [updateFirst, hy]
      | succ j => simp [updateFirst, hy]
    · simp only [firstHit, hy, Bool.false_eq_true, if_false,
        Option.map_eq_some'] at h
      obtain ⟨k, hk, rfl⟩ := h
      cases j with
      | zero => simp [updateFirst, hy]
      | succ j =>
        simp only [updateFirst, hy, Bool.false_eq_true, if_false,
          List.get?_cons_succ]
        rw [ih k hk j]
        by_cases hji : j = k
        · simp [hji]
        · simp [hji, Nat.succ_ne_succ.mpr hji]

theorem get?_some_lt {α : Type} (l : List α) (j : Nat) (x : α)
    (h : l.get? j = some x) : j < l.length := by
  by_contra hj
  rw [List.get?_eq_none.mpr (Nat.le_of_not_lt hj)] at h
  exact Option.noConfusion h

theorem pairP_iff (X E : Int) (sl : Slot) :
    pairP X E sl = true ↔ sl.eid = E ∧ sl.escanid = X := by
  simp [pairP]

theorem hasPair_eq_firstHit (c : Cache) (X E : Int) :
    hasPair c X E = (firstHit (pairP X E) c).isSome := by
  induction c with
  | nil => rfl
  | cons x rest ih =>
    by_cases h : pairP X E x.2 = true
    · simp [hasPair, firstHit, h]
    · simp only [hasPair, List.any_cons, h, Bool.false_or, firstHit,
        Bool.false_eq_true, if_false]
      rw [← hasPair, ih]
      cases firstHit (pairP X E) rest <;> rfl

theorem hasFree_eq_hasPair (c : Cache) (E : Int) :
    hasFree c E = hasPair c 0 E := rfl

theorem hasPair_of_get? (c : Cache) (X E : Int) (j : Nat) (x : Key × Slot)
    (h1 : c.get? j = some x) (h2 : pairP X E x.2 = true) :
    hasPair c X E = true :=
  List.any_eq_true.mpr ⟨x, List.get?_mem h1, h2⟩

theorem pairP_eq_false_of_hasPair (c : Cache) (X E : Int)
    (h : hasPair c X E = false) :
    ∀ x ∈ c, pairP X E x.2 = false := by
  intro x hx
  by_contra hpx
  have hpx' : pairP X E x.2 = true := by
    cases hb : pairP X E x.2
    · exact absurd hb hpx
    · rfl
  have htrue : hasPair c X E = true := List.any_eq_true.mpr ⟨x, hx, hpx'⟩
  rw [htrue] at h
  exact Bool.noConfusion h

theorem firstHit_eq_some_of (p : Slot → Bool) (c : Cache) (i : Nat)
    (x : Key × Slot) (hx : c.get? i = some x) (hpx : p x.2 = true)
    (hmin : ∀ j y, j < i → c.get? j = some y → p y.2 = false) :
    firstHit p c = some i := by
  induction c generalizing i with
  | nil => exact Option.noConfusion hx
  | cons y rest ih =>
    by_cases hy : p y.2 = true
    · cases i with
      | zero => simp [firstHit, hy]
      | succ i => exact absurd (hmin 0 y (Nat.succ_pos i) rfl) (by simp [hy])
    · cases i with
      | zero =>
        rw [List.get?_cons_zero] at hx
        cases hx
        exact absurd hpx (by simp [hy])
      | succ i =>
        have hr := ih i (by simpa using hx)
          (fun j z hj hz => hmin (j + 1) z (Nat.succ_lt_succ hj) (by simpa using hz))
        simp [firstHit, hy, hr]

theorem firstHit_eq_some_iff (p : Slot → Bool) (c : Cache) (i : Nat) :
    firstHit p c = some i ↔
      (∃ x, c.get? i = some x ∧ p x.2 = true) ∧
      (∀ j y, j < i → c.get? j = some y → p y.2 = false) := by
  constructor
  · intro h
    exact ⟨firstHit_get? p c i h, firstHit_min p c i h⟩
  · rintro ⟨⟨x, hx, hpx⟩, hmin⟩
    exact firstHit_eq_some_of p c i x hx hpx hmin

theorem firstHit_congr (p : Slot → Bool) (c d : Cache)
    (hlen : d.length = c.length)
    (h : ∀ j x y, c.get? j = some x → d.get? j = some y → p x.2 = p y.2) :
    firstHit p c = firstHit p d := by
  induction c generalizing d with
  | nil =>
    cases d with
    | nil => rfl
    | cons y d => exact absurd hlen (by simp)
  | cons x c ih =>
    cases d with
    | nil => exact absurd hlen (by simp)
    | cons y d =>
      have h0 : p x.2 = p y.2 := h 0 x y rfl rfl
      by_cases hx : p x.2 = true
      · simp [firstHit, hx, h0 ▸ hx]
      · have hy : p y.2 = true → False := fun hy => hx (h0 ▸ hy)
        have hrec := ih d (by simpa using hlen)
          (fun j a b ha hb => h (j + 1) a b (by simpa using ha) (by simpa using hb))
        simp [firstHit, hx, Bool.eq_false_iff.mpr hy, hrec]

theorem pairProj_length (c : Cache) : (pairProj c).length = c.length := by
  simp [pairProj]

theorem pairProj_get? (c : Cache) (j : Nat) :
    (pairProj c).get? j = (c.get? j).map fun x => (x.2.eid, x.2.escanid) :=
  List.get?_map _ _ _

theorem pairP_congr_proj (X E : Int) (a b : Slot)
    (h : (a.eid, a.escanid) = (b.eid, b.escanid)) :
    pairP X E a = pairP X E b := by
  obtain ⟨h1, h2⟩ := Prod.mk.injEq .. ▸ h
  simp [pairP, h1, h2]

theorem firstHit_congr_of_pairProj (X E : Int) (c d : Cache)
    (h : pairProj c = pairProj d) :
    firstHit (pairP X E) c = firstHit (pairP X E) d := by
  refine firstHit_congr _ c d ?_ ?_
  · have := congrArg List.length h
    simpa [pairProj] using this.symm
  · intro j x y hx hy
    have hj := congrArg (fun l => List.get? l j) h
    simp only [pairProj_get?, hx, hy, Option.map_some] at hj
    exact pairP_congr_proj X E x.2 y.2 (Option.some.inj hj)

theorem hasPair_congr_of_pairProj (X E : Int) (c d : Cache)
    (h : pairProj c = pairProj d) :
    hasPair c X E = hasPair d X E := by
  rw [hasPair_eq_firstHit, hasPair_eq_firstHit,
    firstHit_congr_of_pairProj X E c d h]

theorem patch_get? (c : Cache) (es : List String) (j : Nat) :
    (patch c es).get? j =
      (c.get? j).bind fun x =>
        (es.get? j).map fun e => (x.1, { x.2 with estate := e }) := by
  induction c generalizing es j with
  | nil => cases es <;> cases j <;> simp [patch]
  | cons x c ih =>
    cases es with
    | nil =>
      cases j with
      | zero => simp [patch]
      | succ j => cases hc : c.get? j <;> simp [patch, hc]
    | cons e es =>
      cases j with
      | zero => simp [patch]
      | succ j =>
        simp only [patch, List.zipWith_cons_cons, List.get?_cons_succ]
        exact ih es j

theorem patch_length (c : Cache) (es : List String)
    (h : es.length = c.length) : (patch c es).length = c.length := by
  simp [patch, h]

theorem estates_get? (c : Cache) (j : Nat) :
    (estates c).get? j = (c.get? j).map fun x => x.2.estate :=
  List.get?_map _ _ _

theorem estates_length (c : Cache) : (estates c).length = c.length := by
  simp [estates]

theorem patch_estates_self (c : Cache) : patch c (estates c) = c := by
  induction c with
  | nil => rfl
  | cons x c ih => simp [patch, estates, List.zipWith_cons_cons] at ih ⊢; exact ih

theorem pairProj_patch (c : Cache) (es : List String)
    (h : es.length = c.length) : pairProj (patch c es) = pairProj c := by
  induction c generalizing es with
  | nil => simp [patch, pairProj]
  | cons x c ih =>
    cases es with
    | nil => exact absurd h (by simp)
    | cons e es =>
      simp only [patch, List.zipWith_cons_cons, pairProj, List.map_cons]
      rw [← pairProj, ← pairProj, ← patch, ih es (by simpa using h)]

theorem mem_updateFirst (p : Slot → Bool) (f : Slot → Slot) (c : Cache)
    (y : Key × Slot) (hy : y ∈ updateFirst p f c) :
    y ∈ c ∨ ∃ x, x ∈ c ∧ p x.2 = true ∧ y = (x.1, f x.2) := by
  induction c with
  | nil => exact absurd hy (by simp [updateFirst])
  | cons x c ih =>
    by_cases hx : p x.2 = true
    · simp only [updateFirst, hx, if_pos, List.mem_cons] at hy
      rcases hy with hy | hy
      · exact Or.inr ⟨x, List.mem_cons_self x c, hx, hy⟩
      · exact Or.inl (List.mem_cons_of_mem x hy)
    · simp only [updateFirst, hx, Bool.false_eq_true, if_false,
        List.mem_cons] at hy
      rcases hy with hy | hy
      · exact Or.inl (hy ▸ List.mem_cons_self x c)
      · rcases ih hy with h | ⟨z, hz, hpz, hyz⟩
        · exact Or.inl (List.mem_cons_of_mem x h)
        · exact Or.inr ⟨z, List.mem_cons_of_mem x hz, hpz, hyz⟩

theorem updateFirst_mem (p : Slot → Bool) (f : Slot → Slot) (c : Cache)
    (x : Key × Slot) (hx : x ∈ c) :
    x ∈ updateFirst p f c ∨
      (p x.2 = true ∧ (x.1, f x.2) ∈ updateFirst p f c) := by
  induction c with
  | nil => exact absurd hx (by simp)
  | cons y c ih =>
    by_cases hy : p y.2 = true
    · simp only [updateFirst, hy, if_pos]
      rcases List.mem_cons.mp hx with rfl | hx
      · exact Or.inr ⟨hy, List.mem_cons_self _ _⟩
      · exact Or.inl (List.mem_cons_of_mem _ hx)
    · simp only [updateFirst, hy, Bool.false_eq_true, if_false]
      rcases List.mem_cons.mp hx with rfl | hx
      · exact Or.inl (List.mem_cons_self _ _)
      · rcases ih hx with h | ⟨hpx, h⟩
        · exact Or.inl (List.mem_cons_of_mem _ h)
        · exact Or.inr ⟨hpx, List.mem_cons_of_mem _ h⟩

theorem setenginescan_of_hasPair (c : Cache) (X E : Int) (st : String)
    (hp : hasPair c X E = true) :
    setenginescan c X E st
      = updateFirst (pairP X E) (fun sl => { sl with estate := st }) c := by
  simp [setenginescan, hp]

theorem setenginescan_of_not_hasPair (c : Cache) (X E : Int) (st : String)
    (hp : hasPair c X E = false) :
    setenginescan c X E st
      = updateFirst (pairP 0 E) (fun sl => { sl with escanid := X, estate := st }) c := by
  simp [setenginescan, hp]

theorem relevant_iff (sc : Scan) :
    relevant sc = true ↔
      0 < sc.id ∧ 0 < scanEngineId sc ∧ engineStatus sc.stageId ≠ "Idle" := by
  simp [relevant, and_assoc]

theorem assignScan_eq (c : Cache) (sc : Scan) :
    assignScan c sc =
      if relevant sc = true then
        setenginescan c sc.id (scanEngineId sc) (engineStatus sc.stageId)
      else c := by
  by_cases h1 : (0 < sc.id ∧ 0 < scanEngineId sc)
  · by_cases h2 : engineStatus sc.stageId = "Idle"
    · simp [assignScan, relevant, h1.1, h1.2, h2]
    · simp [assignScan, relevant, h1.1, h1.2, h2]
  · have : ¬ (0 < sc.id ∧ 0 < scanEngineId sc ∧ engineStatus sc.stageId ≠ "Idle") :=
      fun hc => h1 ⟨hc.1, hc.2.1⟩
    rw [if_neg (by rw [relevant_iff]; exact this)]
    rcases Decidable.not_and_iff_or_not.mp h1 with h | h
    · simp [assignScan, h]
    · simp [assignScan, h]

theorem get?_set_self {α : Type} (l : List α) (i : Nat) (a : α)
    (h : i < l.length) : (l.set i a).get? i = some a := by
  induction l generalizing i with
  | nil => exact absurd h (by simp)
  | cons b l ih =>
    cases i with
    | zero => rfl
    | succ i => exact ih i (by simpa using h)

theorem get?_set_ne {α : Type} (l : List α) (i j : Nat) (a : α)
    (h : j ≠ i) : (l.set i a).get? j = l.get? j := by
  induction l generalizing i j with
  | nil => simp
  | cons b l ih =>
    cases i with
    | zero =>
      cases j with
      | zero => exact absurd rfl h
      | succ j => rfl
    | succ i =>
      cases j with
      | zero => rfl
      | succ j => exact ih i j (fun hc => h (by rw [hc]))

theorem hasPair_patch (c : Cache) (es : List String)
    (hlen : es.length = c.length) (X E : Int) :
    hasPair (patch c es) X E = hasPair c X E :=
  hasPair_congr_of_pairProj X E _ _ (pairProj_patch c es hlen)

theorem firstHit_of_hasPair (c : Cache) (X E : Int)
    (hp : hasPair c X E = true) :
    ∃ i, firstHit (pairP X E) c = some i := by
  rw [hasPair_eq_firstHit] at hp
  exact Option.isSome_iff_exists.mp hp

theorem updateFirst_estate_patch (c : Cache) (es : List String)
    (hlen : es.length = c.length) (X E : Int) (st : String) (i : Nat)
    (hi : firstHit (pairP X E) c = some i) :
    updateFirst (pairP X E) (fun sl => { sl with estate := st }) (patch c es)
      = patch c (es.set i st) := by
  have hip : firstHit (pairP X E) (patch c es) = some i := by
    rw [firstHit_congr_of_pairProj X E (patch c es) c (pairProj_patch c es hlen)]
    exact hi
  apply List.ext
  intro j
  rw [updateFirst_get? _ _ _ i hip j, patch_get?, patch_get?]
  by_cases hj : j = i
  · subst hj
    obtain ⟨x, hx, hpx⟩ := firstHit_get? _ _ _ hi
    have hjc : j < c.length := get?_some_lt c j x hx
    rw [if_pos rfl, hx, get?_set_self es j st (by rw [hlen]; exact hjc)]
    cases he : es.get? j with
    | none =>
      exact absurd (hlen ▸ List.get?_eq_none.mp he) (Nat.not_le.mpr hjc)
    | some e => rfl
  · rw [if_neg hj, get?_set_ne es i j st hj]

theorem setenginescan_patch_noop (c : Cache) (es : List String)
    (hlen : es.length = c.length) (X E : Int) (st : String)
    (hp : hasPair c X E = false) (hf : hasFree c E = false) :
    setenginescan (patch c es) X E st = patch c es := by
  rw [setenginescan_of_not_hasPair _ _ _ _
    (by rw [hasPair_patch c es hlen]; exact hp)]
  apply updateFirst_of_firstHit_none
  rw [firstHit_congr_of_pairProj 0 E (patch c es) c (pairProj_patch c es hlen),
    firstHit_none_iff]
  exact hf

theorem occursScan_head (sc : Scan) (T : List Scan) (hrel : relevant sc = true) :
    occursScan (sc :: T) sc.id (scanEngineId sc) = true := by
  simp [occursScan, List.any_cons, hrel]

theorem lastStatus_isSome_iff (T : List Scan) (X E : Int) :
    (lastStatus T X E).isSome = occursScan T X E := by
  induction T with
  | nil => rfl
  | cons sc T ih =>
    simp only [lastStatus, occursScan, List.any_cons]
    rw [← occursScan, ← ih]
    cases h : lastStatus T X E with
    | some s => simp
    | none =>
      simp only [Option.isSome_none, Bool.or_false]
      cases hc : (relevant sc && sc.id == X && scanEngineId sc == E) <;> simp [hc]

theorem lastStatus_cons_some (sc : Scan) (T : List Scan) (X E : Int)
    (s : String) (h : lastStatus T X E = some s) :
    lastStatus (sc :: T) X E = some s := by
  simp [lastStatus, h]

theorem lastStatus_cons_none (sc : Scan) (T : List Scan) (X E : Int)
    (h : lastStatus T X E = none) :
    lastStatus (sc :: T) X E =
      if relevant sc && sc.id == X && scanEngineId sc == E then
        some (engineStatus sc.stageId)
      else none := by
  simp [lastStatus, h]

theorem lastStatus_of_mem (T : List Scan) (sc : Scan) (h : sc ∈ T)
    (hrel : relevant sc = true) :
    ∃ s, lastStatus T sc.id (scanEngineId sc) = some s := by
  have hocc : occursScan T sc.id (scanEngineId sc) = true :=
    List.any_eq_true.mpr ⟨sc, h, by simp [hrel]⟩
  rw [← lastStatus_isSome_iff] at hocc
  exact Option.isSome_iff_exists.mp hocc

theorem occursScan_cons_elim (sc : Scan) (T : List Scan) (X E : Int)
    (h : occursScan (sc :: T) X E = true)
    (hhead : ¬(relevant sc = true ∧ sc.id = X ∧ scanEngineId sc = E)) :
    occursScan T X E = true := by
  simp only [occursScan, List.any_cons, Bool.or_eq_true] at h
  rcases h with h | h
  · simp only [Bool.and_eq_true, beq_iff_eq] at h
    exact absurd ⟨h.1.1, h.1.2, h.2⟩ hhead
  · exact h

theorem inv2_tail (sc : Scan) (T : List Scan) (C : Cache)
    (h : ∀ sc' ∈ sc :: T, relevant sc' = true →
      ∀ i x, firstHit (pairP sc'.id (scanEngineId sc')) C = some i →
        C.get? i = some x →
        lastStatus (sc :: T) sc'.id (scanEngineId sc') = some x.2.estate) :
    ∀ sc' ∈ T, relevant sc' = true →
      ∀ i x, firstHit (pairP sc'.id (scanEngineId sc')) C = some i →
        C.get? i = some x →
        lastStatus T sc'.id (scanEngineId sc') = some x.2.estate := by
  intro sc' hmem hrel i x hi hx
  obtain ⟨s, hs⟩ := lastStatus_of_mem T sc' hmem hrel
  have h2 := h sc' (List.mem_cons_of_mem _ hmem) hrel i x hi hx
  rw [lastStatus_cons_some sc T _ _ s hs] at h2
  exact hs.trans h2

/-- Master replay lemma: running the assignment loop over a cache that
differs from `C` only at estates pending a rewrite by a scan of `T`
(under the invariants produced by a completed pass) restores exactly `C`. -/
theorem assign_patch_eq (T : List Scan) (C : Cache) :
    ∀ es : List String, es.length = C.length →
    (∀ sc ∈ T, relevant sc = true →
      hasPair C sc.id (scanEngineId sc) = true ∨
        hasFree C (scanEngineId sc) = false) →
    (∀ sc ∈ T, relevant sc = true →
      ∀ i x, firstHit (pairP sc.id (scanEngineId sc)) C = some i →
        C.get? i = some x →
        lastStatus T sc.id (scanEngineId sc) = some x.2.estate) →
    (∀ j x e, C.get? j = some x → es.get? j = some e → e ≠ x.2.estate →
      occursScan T x.2.escanid x.2.eid = true ∧
      firstHit (pairP x.2.escanid x.2.eid) C = some j) →
    assign T (patch C es) = C := by
  induction T with
  | nil =>
    intro es hlen _ _ hd
    show patch C es = C
    apply List.ext
    intro j
    rw [patch_get?]
    cases hc : C.get? j with
    | none => rfl
    | some x =>
      have hjlen : j < C.length := get?_some_lt C j x hc
      cases he : es.get? j with
      | none =>
        exact absurd (hlen ▸ List.get?_eq_none.mp he) (Nat.not_le.mpr hjlen)
      | some e =>
        have hee : e = x.2.estate := by
          by_contra hne
          exact Bool.noConfusion (hd j x e hc he hne).1
        subst hee
        rfl
  | cons sc T ih =>
    intro es hlen hInv1 hInv2 hd
    show assign T (assignScan (patch C es) sc) = C
    have hInv1' : ∀ sc' ∈ T, relevant sc' = true →
        hasPair C sc'.id (scanEngineId sc') = true ∨
          hasFree C (scanEngineId sc') = false :=
      fun sc' h' => hInv1 sc' (List.mem_cons_of_mem _ h')
    have hInv2' := inv2_tail sc T C hInv2
    by_cases hrel : relevant sc = true
    · by_cases hp : hasPair C sc.id (scanEngineId sc) = true
      · obtain ⟨i, hi⟩ := firstHit_of_hasPair C _ _ hp
        rw [assignScan_eq, if_pos hrel,
          setenginescan_of_hasPair _ _ _ _
            (by rw [hasPair_patch C es hlen]; exact hp),
          updateFirst_estate_patch C es hlen _ _ _ i hi]
        apply ih (es.set i (engineStatus sc.stageId))
          (by rw [List.length_set]; exact hlen) hInv1' hInv2'
        intro j x e hcj hej hne
        obtain ⟨xi, hxi, hpxi⟩ := firstHit_get? _ _ _ hi
        by_cases hji : j = i
        · subst hji
          rw [get?_set_self es j _ (by rw [hlen]; exact get?_some_lt C j x hcj)]
            at hej
          replace hej := Option.some.inj hej
          have hxx : xi = x := by
            rw [hcj] at hxi
            exact (Option.some.inj hxi).symm
          rw [hxx] at hpxi
          obtain ⟨heid, hesc⟩ := (pairP_iff _ _ _).mp hpxi
          rw [hesc, heid]
          refine ⟨?_, hi⟩
          have h2 := hInv2 sc (List.mem_cons_self sc T) hrel j x hi hcj
          cases hLT : lastStatus T sc.id (scanEngineId sc) with
          | some s => rw [← lastStatus_isSome_iff, hLT]; rfl
          | none =>
            rw [lastStatus_cons_none sc T _ _ hLT,
              if_pos (by simp [hrel])] at h2
            replace h2 := Option.some.inj h2
            exact absurd (by rw [← hej, h2]) hne
        · rw [get?_set_ne es i j _ hji] at hej
          obtain ⟨hocc, hfh⟩ := hd j x e hcj hej hne
          refine ⟨?_, hfh⟩
          apply occursScan_cons_elim sc T _ _ hocc
          rintro ⟨hr', hid, heng⟩
          apply hji
          have hj2 : firstHit (pairP sc.id (scanEngineId sc)) C = some j := by
            rw [hid, heng]; exact hfh
          rw [hi] at hj2
          exact (Option.some.inj hj2).symm
      · have hf : hasFree C (scanEngineId sc) = false :=
          (hInv1 sc (List.mem_cons_self sc T) hrel).resolve_left hp
        have hp' : hasPair C sc.id (scanEngineId sc) = false :=
          Bool.eq_false_iff.mpr hp
        rw [assignScan_eq, if_pos hrel,
          setenginescan_patch_noop C es hlen _ _ _ hp' hf]
        apply ih es hlen hInv1' hInv2'
        intro j x e hcj hej hne
        obtain ⟨hocc, hfh⟩ := hd j x e hcj hej hne
        refine ⟨?_, hfh⟩
        apply occursScan_cons_elim sc T _ _ hocc
        rintro ⟨hr', hid, heng⟩
        obtain ⟨xj, hxj, hpxj⟩ := firstHit_get? _ _ _ hfh
        have hxx : xj = x := by
          rw [hcj] at hxj
          exact (Option.some.inj hxj).symm
        rw [hxx] at hpxj
        have hpt : hasPair C sc.id (scanEngineId sc) = true := by
          apply hasPair_of_get? C _ _ j x hcj
          rw [hid, heng]
          exact hpxj
        rw [hpt] at hp'
        exact Bool.noConfusion hp'
    · rw [assignScan_eq, if_neg hrel]
      apply ih es hlen hInv1' hInv2'
      intro j x e hcj hej hne
      obtain ⟨hocc, hfh⟩ := hd j x e hcj hej hne
      exact ⟨occursScan_cons_elim sc T _ _ hocc (fun hh => hrel hh.1), hfh⟩

theorem pairProj_updateFirst_estate (X' E' : Int) (st : String) (c : Cache) :
    pairProj
        (updateFirst (pairP X' E') (fun sl => { sl with estate := st }) c)
      = pairProj c := by
  induction c with
  | nil => rfl
  | cons x c ih =>
    by_cases h : pairP X' E' x.2 = true
    · simp [updateFirst, h, pairProj]
    · simp only [updateFirst, h, Bool.false_eq_true, if_false, pairProj,
        List.map_cons]
      rw [← pairProj, ← pairProj, ih]

theorem hasPair_assignScan_mono (c : Cache) (sc : Scan) (X E : Int)
    (hX : X ≠ 0) (h : hasPair c X E = true) :
    hasPair (assignScan c sc) X E = true := by
  rw [assignScan_eq]
  by_cases hrel : relevant sc = true
  · rw [if_pos hrel]
    by_cases hp : hasPair c sc.id (scanEngineId sc) = true
    · rw [setenginescan_of_hasPair _ _ _ _ hp,
        hasPair_congr_of_pairProj X E _ c
          (pairProj_updateFirst_estate _ _ _ c)]
      exact h
    · rw [setenginescan_of_not_hasPair _ _ _ _ (Bool.eq_false_iff.mpr hp)]
      obtain ⟨x, hx, hpx⟩ := List.any_eq_true.mp h
      rcases updateFirst_mem (pairP 0 (scanEngineId sc)) _ c x hx
        with hm | ⟨hp0, hm⟩
      · exact List.any_eq_true.mpr ⟨x, hm, hpx⟩
      · obtain ⟨_, h0⟩ := (pairP_iff _ _ _).mp hp0
        obtain ⟨_, hXx⟩ := (pairP_iff _ _ _).mp hpx
        exact absurd (by rw [← hXx, h0]) hX
  · rw [if_neg hrel]
    exact h

theorem hasFree_assignScan_anti (c : Cache) (sc : Scan) (E : Int)
    (h : hasFree c E = false) : hasFree (assignScan c sc) E = false := by
  cases hres : hasFree (assignScan c sc) E
  · rfl
  · exfalso
    obtain ⟨y, hy, hpy⟩ := List.any_eq_true.mp hres
    rw [assignScan_eq] at hy
    by_cases hrel : relevant sc = true
    · rw [if_pos hrel] at hy
      by_cases hp : hasPair c sc.id (scanEngineId sc) = true
      · rw [setenginescan_of_hasPair _ _ _ _ hp] at hy
        rcases mem_updateFirst _ _ _ y hy with hm | ⟨x, hx, hpx, rfl⟩
        · have hcontra : hasFree c E = true := List.any_eq_true.mpr ⟨y, hm, hpy⟩
          rw [hcontra] at h
          exact Bool.noConfusion h
        · have hpy' : pairP 0 E x.2 = true := by simpa [pairP] using hpy
          have hcontra : hasFree c E = true := List.any_eq_true.mpr ⟨x, hx, hpy'⟩
          rw [hcontra] at h
          exact Bool.noConfusion h
      · rw [setenginescan_of_not_hasPair _ _ _ _ (Bool.eq_false_iff.mpr hp)]
          at hy
        rcases mem_updateFirst _ _ _ y hy with hm | ⟨x, hx, hpx, rfl⟩
        · have hcontra : hasFree c E = true := List.any_eq_true.mpr ⟨y, hm, hpy⟩
          rw [hcontra] at h
          exact Bool.noConfusion h
        · obtain ⟨_, h0⟩ := (pairP_iff _ _ _).mp hpy
          have h0' : sc.id = 0 := h0
          have hpos := ((relevant_iff sc).mp hrel).1
          rw [h0'] at hpos
          exact lt_irrefl 0 hpos
    · rw [if_neg hrel] at hy
      have hcontra : hasFree c E = true := List.any_eq_true.mpr ⟨y, hy, hpy⟩
      rw [hcontra] at h
      exact Bool.noConfusion h

theorem hasPair_assign_mono (T : List Scan) (c : Cache) (X E : Int)
    (hX : X ≠ 0) (h : hasPair c X E = true) :
    hasPair (assign T c) X E = true := by
  induction T generalizing c with
  | nil => exact h
  | cons sc T ih => exact ih _ (hasPair_assignScan_mono c sc X E hX h)

theorem hasFree_assign_anti (T : List Scan) (c : Cache) (E : Int)
    (h : hasFree c E = false) : hasFree (assign T c) E = false := by
  induction T generalizing c with
  | nil => exact h
  | cons sc T ih => exact ih _ (hasFree_assignScan_anti c sc E h)

theorem assignScan_establishes (c : Cache) (sc : Scan)
    (hrel : relevant sc = true) :
    hasPair (assignScan c sc) sc.id (scanEngineId sc) = true ∨
      hasFree (assignScan c sc) (scanEngineId sc) = false := by
  rw [assignScan_eq, if_pos hrel]
  by_cases hp : hasPair c sc.id (scanEngineId sc) = true
  · left
    rw [setenginescan_of_hasPair _ _ _ _ hp,
      hasPair_congr_of_pairProj _ _ _ c (pairProj_updateFirst_estate _ _ _ c)]
    exact hp
  · by_cases hf : hasFree c (scanEngineId sc) = true
    · left
      rw [setenginescan_of_not_hasPair _ _ _ _ (Bool.eq_false_iff.mpr hp)]
      obtain ⟨q, hq⟩ := firstHit_of_hasPair c 0 _ hf
      obtain ⟨x, hx, hpx⟩ := firstHit_get? _ _ _ hq
      have hres := updateFirst_get? (pairP 0 (scanEngineId sc))
        (fun sl => { sl with escanid := sc.id, estate := engineStatus sc.stageId })
        c q hq q
      rw [if_pos rfl, hx] at hres
      apply hasPair_of_get? _ _ _ q _ hres
      obtain ⟨he, _⟩ := (pairP_iff _ _ _).mp hpx
      simp [pairP, he]
    · right
      rw [setenginescan_of_not_hasPair _ _ _ _ (Bool.eq_false_iff.mpr hp),
        updateFirst_of_firstHit_none _ _ _
          (by rw [firstHit_none_iff]; exact Bool.eq_false_iff.mpr hf)]
      exact Bool.eq_false_iff.mpr hf

theorem inv1_assign (S : List Scan) (R : Cache) :
    ∀ sc ∈ S, relevant sc = true →
      hasPair (assign S R) sc.id (scanEngineId sc) = true ∨
        hasFree (assign S R) (scanEngineId sc) = false := by
  induction S generalizing R with
  | nil => intro sc h; exact absurd h (by simp)
  | cons sc0 T ih =>
    intro sc hmem hrel
    rcases List.mem_cons.mp hmem with rfl | hmem'
    · show hasPair (assign T (assignScan R sc)) _ _ = true ∨
        hasFree (assign T (assignScan R sc)) _ = false
      rcases assignScan_establishes R sc hrel with h | h
      · exact Or.inl (hasPair_assign_mono T _ _ _
          (ne_of_gt ((relevant_iff sc).mp hrel).1) h)
      · exact Or.inr (hasFree_assign_anti T _ _ h)
    · exact ih (assignScan R sc0) sc hmem' hrel

/-- Origin of the estate found at the first slot carrying a given
(scan id, engine id) pair after the assignment loop: either the last
matching scan of the loop wrote it, or no scan matched the pair and the
slot (same position) carried that estate already. -/
theorem assign_estate_origin (T : List Scan) (R : Cache) (X E : Int)
    (hX : 0 < X) :
    ∀ i x, firstHit (pairP X E) (assign T R) = some i →
      (assign T R).get? i = some x →
      lastStatus T X E = some x.2.estate ∨
        (lastStatus T X E = none ∧
          firstHit (pairP X E) R = some i ∧
          ∃ y, R.get? i = some y ∧ y.2.estate = x.2.estate) := by
  induction T generalizing R with
  | nil =>
    intro i x hfh hget
    exact Or.inr ⟨rfl, hfh, x, hget, rfl⟩
  | cons sc0 T ih =>
    intro i x hfh hget
    rcases ih (assignScan R sc0) i x hfh hget
      with hls | ⟨hnone, hfh1, y, hy1, hest⟩
    · exact Or.inl (lastStatus_cons_some sc0 T X E _ hls)
    · by_cases hmatch : relevant sc0 = true ∧ sc0.id = X ∧ scanEngineId sc0 = E
      · obtain ⟨hrel, hid, heng⟩ := hmatch
        subst hid
        subst heng
        left
        rw [lastStatus_cons_none sc0 T _ _ hnone, if_pos (by simp [hrel])]
        rw [assignScan_eq, if_pos hrel] at hfh1 hy1
        by_cases hp : hasPair R sc0.id (scanEngineId sc0) = true
        · rw [setenginescan_of_hasPair _ _ _ _ hp] at hfh1 hy1
          have hproj := pairProj_updateFirst_estate sc0.id (scanEngineId sc0)
            (engineStatus sc0.stageId) R
          have hfhR : firstHit (pairP sc0.id (scanEngineId sc0)) R = some i := by
            rw [← firstHit_congr_of_pairProj _ _ _ R hproj]
            exact hfh1
          have hU := updateFirst_get? (pairP sc0.id (scanEngineId sc0))
            (fun sl => { sl with estate := engineStatus sc0.stageId }) R i hfhR i
          rw [if_pos rfl] at hU
          rw [hU] at hy1
          cases hr : R.get? i with
          | none =>
            rw [hr] at hy1
            exact Option.noConfusion hy1
          | some r =>
            rw [hr] at hy1
            replace hy1 := Option.some.inj hy1
            rw [← hest, ← hy1]
        · by_cases hf : hasFree R (scanEngineId sc0) = true
          · rw [setenginescan_of_not_hasPair _ _ _ _ (Bool.eq_false_iff.mpr hp)]
              at hfh1 hy1
            obtain ⟨q, hq⟩ := firstHit_of_hasPair R 0 _ hf
            obtain ⟨z, hz, hpz⟩ := firstHit_get? _ _ _ hq
            have hUq := updateFirst_get? (pairP 0 (scanEngineId sc0))
              (fun sl =>
                { sl with escanid := sc0.id, estate := engineStatus sc0.stageId })
              R q hq
            have hUqq := hUq q
            rw [if_pos rfl, hz] at hUqq
            have hfhU : firstHit (pairP sc0.id (scanEngineId sc0))
                (updateFirst (pairP 0 (scanEngineId sc0))
                  (fun sl => { sl with escanid := sc0.id, estate := engineStatus sc0.stageId })
                  R) = some q := by
              apply firstHit_eq_some_of _ _ q _ hUqq
              · obtain ⟨hez, _⟩ := (pairP_iff _ _ _).mp hpz
                simp [pairP, hez]
              · intro j y' hj hy'
                have hUj := hUq j
                rw [if_neg (Nat.ne_of_lt hj)] at hUj
                rw [hUj] at hy'
                exact pairP_eq_false_of_hasPair R _ _
                  (Bool.eq_false_iff.mpr hp) y' (List.get?_mem hy')
            rw [hfhU] at hfh1
            obtain rfl := Option.some.inj hfh1
            rw [hUqq] at hy1
            replace hy1 := Option.some.inj hy1
            rw [← hest, ← hy1]
          · rw [setenginescan_of_not_hasPair _ _ _ _ (Bool.eq_false_iff.mpr hp),
              updateFirst_of_firstHit_none _ _ _
                (by rw [firstHit_none_iff]; exact Bool.eq_false_iff.mpr hf)]
              at hfh1
            rw [(firstHit_none_iff _ _).mpr (Bool.eq_false_iff.mpr hp)] at hfh1
            exact Option.noConfusion hfh1
      · right
        have hls0 : lastStatus (sc0 :: T) X E = none := by
          rw [lastStatus_cons_none sc0 T X E hnone, if_neg]
          intro hc
          simp only [Bool.and_eq_true, beq_iff_eq] at hc
          exact hmatch ⟨hc.1.1, hc.1.2, hc.2⟩
        by_cases hrel : relevant sc0 = true
        · have hpair_ne : ¬(sc0.id = X ∧ scanEngineId sc0 = E) :=
            fun hh => hmatch ⟨hrel, hh.1, hh.2⟩
          rw [assignScan_eq, if_pos hrel] at hfh1 hy1
          by_cases hp : hasPair R sc0.id (scanEngineId sc0) = true
          · rw [setenginescan_of_hasPair _ _ _ _ hp] at hfh1 hy1
            obtain ⟨i0, hi0⟩ := firstHit_of_hasPair R _ _ hp
            have hproj := pairProj_updateFirst_estate sc0.id (scanEngineId sc0)
              (engineStatus sc0.stageId) R
            have hfhR : firstHit (pairP X E) R = some i := by
              rw [← firstHit_congr_of_pairProj X E _ R hproj]
              exact hfh1
            refine ⟨hls0, hfhR, ?_⟩
            obtain ⟨xi, hxi, hpxi⟩ := firstHit_get? _ _ _ hfhR
            obtain ⟨x0, hx0, hpx0⟩ := firstHit_get? _ _ _ hi0
            have hii0 : i ≠ i0 := by
              intro hEq
              subst hEq
              rw [hxi] at hx0
              have hx0' := (Option.some.inj hx0).symm
              rw [hx0'] at hpx0
              obtain ⟨ha, hb⟩ := (pairP_iff X E _).mp hpxi
              obtain ⟨ha0, hb0⟩ := (pairP_iff _ _ _).mp hpx0
              exact hpair_ne ⟨hb0.symm.trans hb, ha0.symm.trans ha⟩
            have hU := updateFirst_get? (pairP sc0.id (scanEngineId sc0))
              (fun sl => { sl with estate := engineStatus sc0.stageId })
              R i0 hi0 i
            rw [if_neg hii0] at hU
            rw [hU] at hy1
            exact ⟨y, hy1, hest⟩
          · by_cases hfr : hasFree R (scanEngineId sc0) = true
            · rw [setenginescan_of_not_hasPair _ _ _ _
                (Bool.eq_false_iff.mpr hp)] at hfh1 hy1
              obtain ⟨q, hq⟩ := firstHit_of_hasPair R 0 _ hfr
              obtain ⟨z, hz, hpz⟩ := firstHit_get? _ _ _ hq
              have hUq := updateFirst_get? (pairP 0 (scanEngineId sc0))
                (fun sl => { sl with escanid := sc0.id, estate := engineStatus sc0.stageId })
                R q hq
              obtain ⟨xi, hxi, hpxi⟩ := firstHit_get? _ _ _ hfh1
              have hiq : i ≠ q := by
                intro hEq
                subst hEq
                have hUi := hUq i
                rw [if_pos rfl, hz] at hUi
                rw [hUi] at hxi
                have hxi' := (Option.some.inj hxi).symm
                rw [hxi'] at hpxi
                obtain ⟨ha, hb⟩ := (pairP_iff X E _).mp hpxi
                have hb' : sc0.id = X := hb
                have ha' : z.2.eid = E := ha
                obtain ⟨hez, _⟩ := (pairP_iff _ _ _).mp hpz
                exact hpair_ne ⟨hb', hez.symm.trans ha'⟩
              have hfhR : firstHit (pairP X E) R = some i := by
                have hUi := hUq i
                rw [if_neg hiq] at hUi
                apply firstHit_eq_some_of _ _ i xi
                · rw [← hUi]
                  exact hxi
                · exact hpxi
                · intro j y' hj hy'
                  by_cases hjq : j = q
                  · subst hjq
                    rw [hz] at hy'
                    have hzy : y' = z := (Option.some.inj hy').symm
                    rw [hzy]
                    obtain ⟨_, h0⟩ := (pairP_iff _ _ _).mp hpz
                    apply Bool.eq_false_iff.mpr
                    intro hcon
                    obtain ⟨_, hXz⟩ := (pairP_iff X E _).mp hcon
                    rw [h0] at hXz
                    rw [← hXz] at hX
                    exact lt_irrefl 0 hX
                  · have hUj := hUq j
                    rw [if_neg hjq] at hUj
                    exact firstHit_min _ _ _ hfh1 j y' hj (by rw [hUj]; exact hy')
              refine ⟨hls0, hfhR, ?_⟩
              have hUi := hUq i
              rw [if_neg hiq] at hUi
              rw [hUi] at hy1
              exact ⟨y, hy1, hest⟩
            · rw [setenginescan_of_not_hasPair _ _ _ _
                  (Bool.eq_false_iff.mpr hp),
                updateFirst_of_firstHit_none _ _ _
                  (by rw [firstHit_none_iff]; exact Bool.eq_false_iff.mpr hfr)]
                at hfh1 hy1
              exact ⟨hls0, hfh1, y, hy1, hest⟩
        · rw [assignScan_eq, if_neg hrel] at hfh1 hy1
          exact ⟨hls0, hfh1, y, hy1, hest⟩

theorem inv2_assign (S : List Scan) (R : Cache) :
    ∀ sc ∈ S, relevant sc = true →
      ∀ i x, firstHit (pairP sc.id (scanEngineId sc)) (assign S R) = some i →
        (assign S R).get? i = some x →
        lastStatus S sc.id (scanEngineId sc) = some x.2.estate := by
  intro sc hmem hrel i x hfh hget
  have hX : 0 < sc.id := ((relevant_iff sc).mp hrel).1
  rcases assign_estate_origin S R sc.id (scanEngineId sc) hX i x hfh hget
    with h | ⟨hnone, _, _⟩
  · exact h
  · obtain ⟨s, hs⟩ := lastStatus_of_mem S sc hmem hrel
    rw [hs] at hnone
    exact Option.noConfusion hnone

/-- The assignment loop is idempotent on its own output. -/
theorem assign_assign (S : List Scan) (R : Cache) :
    assign S (assign S R) = assign S R := by
  have h := assign_patch_eq S (assign S R) (estates (assign S R))
    (estates_length _) (inv1_assign S R) (inv2_assign S R) ?_
  · rw [patch_estates_self] at h
    exact h
  · intro j x e hx he hne
    rw [estates_get?, hx] at he
    exact absurd (Option.some.inj he).symm hne

/- ------------------------------------------------------------------ -/
/- Keys and fixed points of prune, grow, release                      -/
/- ------------------------------------------------------------------ -/

theorem release_map_fst (S : List Scan) (c : Cache) :
    (release S c).map Prod.fst = c.map Prod.fst := by
  induction c with
  | nil => rfl
  | cons x c ih =>
    by_cases h : keepAssign S x.2 = true
    · simp only [release, List.map_cons, if_pos h] at ih ⊢
      rw [← release] at ih ⊢
      rw [ih]
    · simp only [release, List.map_cons, h, Bool.false_eq_true, if_false] at ih ⊢
      rw [← release] at ih ⊢
      rw [ih]

theorem setenginescan_map_fst (c : Cache) (X E : Int) (st : String) :
    (setenginescan c X E st).map Prod.fst = c.map Prod.fst := by
  by_cases hp : hasPair c X E = true
  · rw [setenginescan_of_hasPair _ _ _ _ hp, updateFirst_map_fst]
  · rw [setenginescan_of_not_hasPair _ _ _ _ (Bool.eq_false_iff.mpr hp),
      updateFirst_map_fst]

theorem assignScan_map_fst (c : Cache) (sc : Scan) :
    (assignScan c sc).map Prod.fst = c.map Prod.fst := by
  rw [assignScan_eq]
  by_cases hrel : relevant sc = true
  · rw [if_pos hrel, setenginescan_map_fst]
  · rw [if_neg hrel]

theorem assign_map_fst (S : List Scan) (c : Cache) :
    (assign S c).map Prod.fst = c.map Prod.fst := by
  induction S generalizing c with
  | nil => rfl
  | cons sc S ih => exact (ih _).trans (assignScan_map_fst c sc)

theorem hasKey_congr (c d : Cache) (h : c.map Prod.fst = d.map Prod.fst)
    (k : Key) : hasKey c k = hasKey d k := by
  have hh : ∀ l : Cache, hasKey l k = (l.map Prod.fst).any fun q => q == k := by
    intro l
    induction l with
    | nil => rfl
    | cons x l ihl =>
      simp only [hasKey, List.any_cons, List.map_cons] at ihl ⊢
      rw [ihl]
  rw [hh c, hh d, h]

theorem foldl_grow_subset (e : Engine) (l : List Nat) :
    ∀ (c : Cache), ∀ p ∈ c,
      p ∈ l.foldl
        (fun acc j =>
          if hasKey acc (e.id, j + 1) then acc
          else acc ++ [((e.id, j + 1), newSlot e (j + 1))]) c := by
  induction l with
  | nil => intro c p hp; exact hp
  | cons i l ih =>
    intro c p hp
    rw [List.foldl_cons]
    apply ih
    by_cases hc : hasKey c (e.id, i + 1) = true
    · rw [if_pos hc]; exact hp
    · rw [if_neg (by rw [Bool.eq_false_iff.mpr hc]; exact fun hcc => Bool.noConfusion hcc)]
      exact List.mem_append_left _ hp

theorem growEngine_subset (e : Engine) (c : Cache) :
    ∀ p ∈ c, p ∈ growEngine e c :=
  foldl_grow_subset e _ c

theorem hasKey_growEngine_mono (e : Engine) (c : Cache) (k : Key)
    (h : hasKey c k = true) : hasKey (growEngine e c) k = true := by
  obtain ⟨p, hp, hpk⟩ := List.any_eq_true.mp h
  exact List.any_eq_true.mpr ⟨p, growEngine_subset e c p hp, hpk⟩

theorem hasKey_grow_mono (engines : List Engine) (c : Cache) (k : Key)
    (h : hasKey c k = true) : hasKey (grow engines c) k = true := by
  induction engines generalizing c with
  | nil => exact h
  | cons e es ih => exact ih _ (hasKey_growEngine_mono e c k h)

theorem foldl_grow_hasKey (e : Engine) (l : List Nat) :
    ∀ (c : Cache) (j : Nat),
      (j ∈ l ∨ hasKey c (e.id, j + 1) = true) →
      hasKey
        (l.foldl
          (fun acc i =>
            if hasKey acc (e.id, i + 1) then acc
            else acc ++ [((e.id, i + 1), newSlot e (i + 1))]) c)
        (e.id, j + 1) = true := by
  induction l with
  | nil =>
    intro c j h
    rcases h with h | h
    · exact absurd h (by simp)
    · exact h
  | cons i l ih =>
    intro c j h
    rw [List.foldl_cons]
    rcases h with hmem | hk
    · rcases List.mem_cons.mp hmem with rfl | hmem'
      · apply ih
        right
        by_cases hc : hasKey c (e.id, j + 1) = true
        · rw [if_pos hc]; exact hc
        · rw [if_neg (by rw [Bool.eq_false_iff.mpr hc]; exact fun hcc => Bool.noConfusion hcc)]
          simp [hasKey, List.any_append]
      · exact ih _ j (Or.inl hmem')
    · apply ih
      right
      by_cases hc : hasKey c (e.id, i + 1) = true
      · rw [if_pos hc]; exact hk
      · rw [if_neg (by rw [Bool.eq_false_iff.mpr hc]; exact fun hcc => Bool.noConfusion hcc)]
        simp [hasKey, List.any_append] at hk ⊢
        exact Or.inl hk

theorem growEngine_self_key (e : Engine) (c : Cache) (j : Nat)
    (hj : j < e.maxScans.toNat) :
    hasKey (growEngine e c) (e.id, j + 1) = true :=
  foldl_grow_hasKey e _ c j (Or.inl (List.mem_range.mpr hj))

theorem grow_hasKey (engines : List Engine) (c : Cache) (e : Engine)
    (j : Nat) (he : e ∈ engines) (hj : j < e.maxScans.toNat) :
    hasKey (grow engines c) (e.id, j + 1) = true := by
  induction engines generalizing c with
  | nil => exact absurd he (by simp)
  | cons e0 es ih =>
    show hasKey (es.foldl (fun acc e => growEngine e acc) (growEngine e0 c)) _ = true
    rcases List.mem_cons.mp he with rfl | he'
    · exact hasKey_grow_mono es _ _ (growEngine_self_key e c j hj)
    · exact ih _ he'

theorem foldl_grow_mem (e : Engine) (l : List Nat) :
    ∀ (c : Cache) (p : Key × Slot),
      p ∈ l.foldl
        (fun acc j =>
          if hasKey acc (e.id, j + 1) then acc
          else acc ++ [((e.id, j + 1), newSlot e (j + 1))]) c →
      p ∈ c ∨ ∃ j ∈ l, p = ((e.id, j + 1), newSlot e (j + 1)) := by
  induction l with
  | nil => intro c p hp; exact Or.inl hp
  | cons i l ih =>
    intro c p hp
    rw [List.foldl_cons] at hp
    rcases ih _ p hp with hp' | ⟨j, hj, hpj⟩
    · by_cases hc : hasKey c (e.id, i + 1) = true
      · rw [if_pos hc] at hp'
        exact Or.inl hp'
      · rw [if_neg (by rw [Bool.eq_false_iff.mpr hc]; exact fun hcc => Bool.noConfusion hcc)]
          at hp'
        rcases List.mem_append.mp hp' with hm | hm
        · exact Or.inl hm
        · exact Or.inr ⟨i, List.mem_cons_self i l, by simpa using hm⟩
    · exact Or.inr ⟨j, List.mem_cons_of_mem i hj, hpj⟩

theorem growEngine_mem (e : Engine) (c : Cache) (p : Key × Slot)
    (hp : p ∈ growEngine e c) :
    p ∈ c ∨ ∃ j, j < e.maxScans.toNat ∧ p = ((e.id, j + 1), newSlot e (j + 1)) := by
  rcases foldl_grow_mem e _ c p hp with h | ⟨j, hj, hpj⟩
  · exact Or.inl h
  · exact Or.inr ⟨j, List.mem_range.mp hj, hpj⟩

theorem grow_mem (engines : List Engine) :
    ∀ (c : Cache) (p : Key × Slot), p ∈ grow engines c →
      p ∈ c ∨ ∃ e ∈ engines, ∃ j, j < e.maxScans.toNat ∧
        p = ((e.id, j + 1), newSlot e (j + 1)) := by
  induction engines with
  | nil => intro c p hp; exact Or.inl hp
  | cons e0 es ih =>
    intro c p hp
    rcases ih (growEngine e0 c) p hp with hp' | ⟨e, he, j, hj, hpj⟩
    · rcases growEngine_mem e0 c p hp' with h | ⟨j, hj, hpj⟩
      · exact Or.inl h
      · exact Or.inr ⟨e0, List.mem_cons_self e0 es, j, hj, hpj⟩
    · exact Or.inr ⟨e, List.mem_cons_of_mem e0 he, j, hj, hpj⟩

theorem prunePred_of_new (engines : List Engine) (e : Engine) (j : Nat)
    (he : e ∈ engines) (hj : j < e.maxScans.toNat) :
    prunePred engines (e.id, j + 1) = true := by
  apply List.any_eq_true.mpr
  refine ⟨e, he, ?_⟩
  have hcast : (j : Int) + 1 ≤ e.maxScans := by omega
  simp [hcast]

theorem grow_good (engines : List Engine) (c : Cache)
    (h : ∀ p ∈ c, prunePred engines p.1 = true) :
    ∀ p ∈ grow engines c, prunePred engines p.1 = true := by
  intro p hp
  rcases grow_mem engines c p hp with hm | ⟨e, he, j, hj, rfl⟩
  · exact h p hm
  · exact prunePred_of_new engines e j he hj

theorem grow_eq_self (engines : List Engine) :
    ∀ c : Cache,
      (∀ e ∈ engines, ∀ j, j < e.maxScans.toNat →
        hasKey c (e.id, j + 1) = true) →
      grow engines c = c := by
  induction engines with
  | nil => intro c _; rfl
  | cons e0 es ih =>
    intro c h
    have h0 : growEngine e0 c = c := by
      have hall : ∀ j ∈ List.range e0.maxScans.toNat,
          hasKey c (e0.id, j + 1) = true :=
        fun j hj => h e0 (List.mem_cons_self e0 es) j (List.mem_range.mp hj)
      show (List.range e0.maxScans.toNat).foldl _ c = c
      generalize List.range e0.maxScans.toNat = l at hall
      induction l with
      | nil => rfl
      | cons i l ihl =>
        rw [List.foldl_cons, if_pos (hall i (List.mem_cons_self i l))]
        exact ihl (fun j hj => hall j (List.mem_cons_of_mem i hj))
    show es.foldl (fun acc e => growEngine e acc) (growEngine e0 c) = c
    rw [h0]
    exact ih c (fun e he j hj => h e (List.mem_cons_of_mem e0 he) j hj)

theorem release_eq_self (S : List Scan) (c : Cache)
    (h : ∀ p ∈ c, keepAssign S p.2 = true ∨
      (p.2.escanid = 0 ∧ p.2.estate = "Idle")) :
    release S c = c := by
  induction c with
  | nil => rfl
  | cons x c ih =>
    have hx := h x (List.mem_cons_self x c)
    have hc := ih (fun p hp => h p (List.mem_cons_of_mem x hp))
    by_cases hk : keepAssign S x.2 = true
    · simp only [release, List.map_cons, if_pos hk]
      rw [← release, hc]
    · rcases hx with hx | ⟨h0, hIdle⟩
      · exact absurd hx hk
      · simp only [release, List.map_cons, hk, Bool.false_eq_true, if_false]
        rw [← release, hc]
        have hslot : resetSlot x.2 = x.2 := by
          rw [resetSlot, ← h0, ← hIdle]
        rw [hslot]

theorem release_inv (S : List Scan) (c : Cache) :
    ∀ p ∈ release S c, keepAssign S p.2 = true ∨
      (p.2.escanid = 0 ∧ p.2.estate = "Idle") := by
  intro p hp
  obtain ⟨x, hx, hfx⟩ := List.mem_map.mp hp
  by_cases hk : keepAssign S x.2 = true
  · rw [if_pos hk] at hfx
    rw [← hfx]
    exact Or.inl hk
  · rw [if_neg hk] at hfx
    rw [← hfx]
    exact Or.inr ⟨rfl, rfl⟩

theorem activeStage_of_status (n : Int) (h : engineStatus n ≠ "Idle") :
    activeStage n = true := by
  by_cases h3 : n = 3
  · subst h3
    rfl
  · by_cases hb : (4 ≤ n && n ≤ 6) = true
    · simp only [Bool.and_eq_true, decide_eq_true_eq] at hb
      simp only [activeStage, Bool.and_eq_true, decide_eq_true_eq]
      omega
    · exfalso
      apply h
      rw [engineStatus, if_neg (by simpa using h3), if_neg hb]

theorem assignScan_keep_inv (S : List Scan) (c : Cache) (sc : Scan)
    (hsc : sc ∈ S)
    (h : ∀ p ∈ c, keepAssign S p.2 = true ∨
      (p.2.escanid = 0 ∧ p.2.estate = "Idle")) :
    ∀ p ∈ assignScan c sc, keepAssign S p.2 = true ∨
      (p.2.escanid = 0 ∧ p.2.estate = "Idle") := by
  intro p hp
  rw [assignScan_eq] at hp
  by_cases hrel : relevant sc = true
  · rw [if_pos hrel] at hp
    obtain ⟨hid, heng, hstat⟩ := (relevant_iff sc).mp hrel
    have hact : activeStage sc.stageId = true := activeStage_of_status _ hstat
    by_cases hpk : hasPair c sc.id (scanEngineId sc) = true
    · rw [setenginescan_of_hasPair _ _ _ _ hpk] at hp
      rcases mem_updateFirst _ _ _ p hp with hm | ⟨x, hx, hpx, rfl⟩
      · exact h p hm
      · left
        obtain ⟨heid, hesc⟩ := (pairP_iff _ _ _).mp hpx
        apply List.any_eq_true.mpr
        refine ⟨sc, hsc, ?_⟩
        simp [hesc, heid, hact]
    · rw [setenginescan_of_not_hasPair _ _ _ _ (Bool.eq_false_iff.mpr hpk)]
        at hp
      rcases mem_updateFirst _ _ _ p hp with hm | ⟨x, hx, hpx, rfl⟩
      · exact h p hm
      · left
        obtain ⟨heid, hesc⟩ := (pairP_iff _ _ _).mp hpx
        apply List.any_eq_true.mpr
        refine ⟨sc, hsc, ?_⟩
        simp [heid, hact]
  · rw [if_neg hrel] at hp
    exact h p hp

theorem assign_keep_inv (S : List Scan) :
    ∀ (T : List Scan), (∀ sc ∈ T, sc ∈ S) →
    ∀ c : Cache,
      (∀ p ∈ c, keepAssign S p.2 = true ∨
        (p.2.escanid = 0 ∧ p.2.estate = "Idle")) →
      ∀ p ∈ assign T c, keepAssign S p.2 = true ∨
        (p.2.escanid = 0 ∧ p.2.estate = "Idle") := by
  intro T
  induction T with
  | nil => intro _ c h; exact h
  | cons sc T ih =>
    intro hsub c h
    exact ih (fun s hs => hsub s (List.mem_cons_of_mem sc hs)) _
      (assignScan_keep_inv S c sc (hsub sc (List.mem_cons_self sc T)) h)

theorem reconcile_map_fst (c : Cache) (engines : List Engine)
    (scans : List Scan) :
    (reconcile c engines scans).map Prod.fst
      = (grow engines (prune engines c)).map Prod.fst := by
  rw [reconcile, assign_map_fst, release_map_fst]

theorem reconcile_keys_good (c : Cache) (engines : List Engine)
    (scans : List Scan) :
    ∀ p ∈ reconcile c engines scans, prunePred engines p.1 = true := by
  have hGgood : ∀ p ∈ grow engines (prune engines c),
      prunePred engines p.1 = true :=
    grow_good engines (prune engines c)
      (fun p hp => (List.mem_filter.mp hp).2)
  intro p hp
  have hm : p.1 ∈ (reconcile c engines scans).map Prod.fst :=
    List.mem_map_of_mem Prod.fst hp
  rw [reconcile_map_fst] at hm
  obtain ⟨p', hp', he⟩ := List.mem_map.mp hm
  rw [← he]
  exact hGgood p' hp'

/-- C3: one reconciliation pass is idempotent: running `reconcile` twice
with identical engine and scan snapshots yields the same slot cache as
running it once, for every starting cache. -/
theorem C3_reconcile_idempotent (c : Cache) (engines : List Engine)
    (scans : List Scan) :
    reconcile (reconcile c engines scans) engines scans
      = reconcile c engines scans := by
  have hAfst := reconcile_map_fst c engines scans
  have h1 : prune engines (reconcile c engines scans)
      = reconcile c engines scans :=
    List.filter_eq_self.mpr (fun p hp => reconcile_keys_good c engines scans p hp)
  have h2 : grow engines (reconcile c engines scans)
      = reconcile c engines scans := by
    apply grow_eq_self
    intro e he j hj
    rw [hasKey_congr _ _ hAfst]
    exact grow_hasKey engines (prune engines c) e j he hj
  have h3 : release scans (reconcile c engines scans)
      = reconcile c engines scans := by
    apply release_eq_self
    show ∀ p ∈ assign scans (release scans (grow engines (prune engines c))), _
    exact assign_keep_inv scans scans (fun s hs => hs) _
      (release_inv scans (grow engines (prune engines c)))
  show assign scans
      (release scans
        (grow engines (prune engines (reconcile c engines scans))))
    = reconcile c engines scans
  rw [h1, h2, h3]
  show assign scans
      (assign scans (release scans (grow engines (prune engines c))))
    = assign scans (release scans (grow engines (prune engines c)))
  exact assign_assign scans _

/- ------------------------------------------------------------------ -/
/- C8: the assignment rule                                            -/
/- ------------------------------------------------------------------ -/

theorem updateFirst_decomp (p : Slot → Bool) (f : Slot → Slot) (c : Cache)
    (h : (c.any fun x => p x.2) = true) :
    ∃ l₁ x l₂, c = l₁ ++ x :: l₂ ∧ (∀ q ∈ l₁, p q.2 = false) ∧
      p x.2 = true ∧
      updateFirst p f c = l₁ ++ (x.1, f x.2) :: l₂ := by
  induction c with
  | nil => exact absurd h (by simp)
  | cons y c ih =>
    by_cases hy : p y.2 = true
    · exact ⟨[], y, c, rfl, by simp, hy, by simp [updateFirst, hy]⟩
    · have h' : (c.any fun x => p x.2) = true := by
        rw [List.any_cons, Bool.or_eq_true] at h
        rcases h with hh | hh
        · exact absurd hh hy
        · exact hh
      obtain ⟨l₁, x, l₂, hc, hl₁, hx, hu⟩ := ih h'
      refine ⟨y :: l₁, x, l₂, by simp [hc], ?_, hx, ?_⟩
      · intro q hq
        rcases List.mem_cons.mp hq with rfl | hq'
        · exact Bool.eq_false_iff.mpr hy
        · exact hl₁ q hq'
      · simp only [updateFirst, hy, Bool.false_eq_true, if_false, hu,
          List.cons_append]

/-- C8: for a scan with active stage and a positive non-null engine
reference, the engine-visible status is `Queued` for stage 3 and
`Scanning` for stages 4..6; if some slot of the engine already carries the
scan id, only the first such slot's status is updated; otherwise the first
free slot of that engine in slot-key iteration order receives the id (and
no other slot changes); with no free slot the cache is unchanged. -/
theorem C8_assignment_rule (c : Cache) (sc : Scan) (g : Int)
    (h1 : activeStage sc.stageId = true) (h2 : sc.engine = some g)
    (h3 : 0 < g) (h4 : 0 < sc.id) :
    (engineStatus sc.stageId
      = if sc.stageId = 3 then "Queued" else "Scanning") ∧
    (hasPair c sc.id g = true →
      ∃ l₁ k sl l₂, c = l₁ ++ (k, sl) :: l₂ ∧ sl.eid = g ∧
        sl.escanid = sc.id ∧
        (∀ q ∈ l₁, ¬(q.2.eid = g ∧ q.2.escanid = sc.id)) ∧
        assignScan c sc
          = l₁ ++ (k, { sl with estate := engineStatus sc.stageId }) :: l₂) ∧
    (hasPair c sc.id g = false → hasFree c g = true →
      ∃ l₁ k sl l₂, c = l₁ ++ (k, sl) :: l₂ ∧ sl.eid = g ∧ sl.escanid = 0 ∧
        (∀ q ∈ l₁, ¬(q.2.eid = g ∧ q.2.escanid = 0)) ∧
        assignScan c sc
          = l₁ ++ (k, { sl with escanid := sc.id, estate := engineStatus sc.stageId }) :: l₂) ∧
    (hasPair c sc.id g = false → hasFree c g = false →
      assignScan c sc = c) := by
  have hact : 3 ≤ sc.stageId ∧ sc.stageId ≤ 6 := by
    simpa [activeStage] using h1
  have hg : scanEngineId sc = g := by simp [scanEngineId, h2]
  have hstat : engineStatus sc.stageId
      = if sc.stageId = 3 then "Queued" else "Scanning" := by
    by_cases hst : sc.stageId = 3
    · rw [if_pos hst, engineStatus, if_pos (by simp [hst])]
    · rw [if_neg hst, engineStatus, if_neg (by simpa using hst),
        if_pos (by simp only [Bool.and_eq_true, decide_eq_true_eq]; omega)]
  have hnotIdle : engineStatus sc.stageId ≠ "Idle" := by
    rw [hstat]
    by_cases hst : sc.stageId = 3
    · rw [if_pos hst]
      decide
    · rw [if_neg hst]
      decide
  have hrel : relevant sc = true :=
    (relevant_iff sc).mpr ⟨h4, by rw [hg]; exact h3, hnotIdle⟩
  have hstep : assignScan c sc
      = setenginescan c sc.id g (engineStatus sc.stageId) := by
    rw [assignScan_eq, if_pos hrel, hg]
  refine ⟨hstat, ?_, ?_, ?_⟩
  · intro hp
    obtain ⟨l₁, x, l₂, hc, hl₁, hx, hu⟩ :=
      updateFirst_decomp (pairP sc.id g)
        (fun sl => { sl with estate := engineStatus sc.stageId }) c hp
    obtain ⟨heid, hesc⟩ := (pairP_iff _ _ _).mp hx
    refine ⟨l₁, x.1, x.2, l₂, by rw [hc], heid, hesc, ?_, ?_⟩
    · intro q hq hcon
      exact Bool.noConfusion ((hl₁ q hq).symm.trans
        ((pairP_iff sc.id g q.2).mpr ⟨hcon.1, hcon.2⟩))
    · rw [hstep, setenginescan_of_hasPair _ _ _ _ hp, hu]
  · intro hp hf
    obtain ⟨l₁, x, l₂, hc, hl₁, hx, hu⟩ :=
      updateFirst_decomp (pairP 0 g)
        (fun sl =>
          { sl with escanid := sc.id, estate := engineStatus sc.stageId })
        c hf
    obtain ⟨heid, hesc⟩ := (pairP_iff _ _ _).mp hx
    refine ⟨l₁, x.1, x.2, l₂, by rw [hc], heid, hesc, ?_, ?_⟩
    · intro q hq hcon
      exact Bool.noConfusion ((hl₁ q hq).symm.trans
        ((pairP_iff 0 g q.2).mpr ⟨hcon.1, hcon.2⟩))
    · rw [hstep, setenginescan_of_not_hasPair _ _ _ _ hp, hu]
  · intro hp hf
    rw [hstep, setenginescan_of_not_hasPair _ _ _ _ hp]
    exact updateFirst_of_firstHit_none _ _ _
      (by rw [firstHit_none_iff]; exact hf)

/-- C8 (witness): the assignment rule applied to `scanOkA` (stage 4) over
the empty cache. -/
theorem C8_witness :
    engineStatus scanOkA.stageId
      = if scanOkA.stageId = 3 then "Queued" else "Scanning" :=
  (C8_assignment_rule [] scanOkA 1 (by decide) rfl (by decide) (by decide)).1

/- ------------------------------------------------------------------ -/
/- C5: conservation                                                   -/
/- ------------------------------------------------------------------ -/

theorem scanEngineId_pos_engine (sc : Scan) (h : 0 < scanEngineId sc) :
    sc.engine = some (scanEngineId sc) := by
  cases he : sc.engine with
  | none =>
    rw [show scanEngineId sc = 0 from by simp [scanEngineId, he]] at h
    exact absurd h (lt_irrefl 0)
  | some g => simp [scanEngineId, he]

theorem grow_prune_slotBase (c : Cache) (engines : List Engine)
    (hEid : ∀ e ∈ engines, 0 < e.id)
    (hcons : ∀ p ∈ c, p.2.eid = p.1.1)
    (hidle : ∀ p ∈ c, p.2.escanid = 0 → p.2.estate = "Idle") :
    ∀ p ∈ grow engines (prune engines c),
      0 < p.2.eid ∧ (p.2.escanid = 0 → p.2.estate = "Idle") := by
  intro p hp
  rcases grow_mem engines (prune engines c) p hp with hm | ⟨e, he, j, hj, rfl⟩
  · obtain ⟨hmc, hpred⟩ := List.mem_filter.mp hm
    obtain ⟨e, he, hmatch⟩ := List.any_eq_true.mp hpred
    simp only [Bool.and_eq_true, beq_iff_eq, decide_eq_true_eq] at hmatch
    constructor
    · rw [hcons p hmc, ← hmatch.1]
      exact hEid e he
    · exact hidle p hmc
  · exact ⟨hEid e he, fun _ => rfl⟩

theorem release_slotOk (scans : List Scan) (G : Cache)
    (hQ : ∀ p ∈ G, 0 < p.2.eid ∧ (p.2.escanid = 0 → p.2.estate = "Idle")) :
    ∀ p ∈ release scans G, slotOk scans p := by
  intro p hp
  obtain ⟨x, hx, hfx⟩ := List.mem_map.mp hp
  obtain ⟨hpos, hidl⟩ := hQ x hx
  by_cases hk : keepAssign scans x.2 = true
  · rw [if_pos hk] at hfx
    subst hfx
    refine ⟨hpos, ?_, hidl⟩
    intro hnz
    obtain ⟨sc, hsc, hmatch⟩ := List.any_eq_true.mp hk
    simp only [Bool.and_eq_true, beq_iff_eq] at hmatch
    refine ⟨sc, hsc, hmatch.1.1, hmatch.1.2, ?_⟩
    rw [← hmatch.2]
    apply scanEngineId_pos_engine
    rw [hmatch.2]
    exact hpos
  · rw [if_neg hk] at hfx
    subst hfx
    exact ⟨hpos, fun hnz => absurd rfl hnz, fun _ => rfl⟩

theorem assignScan_slotOk (scans : List Scan) (c : Cache) (sc : Scan)
    (hsc : sc ∈ scans) (h : ∀ p ∈ c, slotOk scans p) :
    ∀ p ∈ assignScan c sc, slotOk scans p := by
  intro p hp
  rw [assignScan_eq] at hp
  by_cases hrel : relevant sc = true
  · rw [if_pos hrel] at hp
    obtain ⟨hid, heng, hstat⟩ := (relevant_iff sc).mp hrel
    have hact : activeStage sc.stageId = true := activeStage_of_status _ hstat
    by_cases hpk : hasPair c sc.id (scanEngineId sc) = true
    · rw [setenginescan_of_hasPair _ _ _ _ hpk] at hp
      rcases mem_updateFirst _ _ _ p hp with hm | ⟨x, hx, hpx, rfl⟩
      · exact h p hm
      · obtain ⟨heid, hesc⟩ := (pairP_iff _ _ _).mp hpx
        obtain ⟨hpos, _, _⟩ := h x hx
        have hpos' : 0 < x.2.eid := hpos
        refine ⟨hpos', ?_, ?_⟩
        · intro _
          refine ⟨sc, hsc, hesc.symm, hact, ?_⟩
          show sc.engine = some x.2.eid
          rw [heid]
          exact scanEngineId_pos_engine sc heng
        · intro h0
          have h0' : sc.id = 0 := by
            rw [← hesc]
            exact h0
          rw [h0'] at hid
          exact absurd hid (lt_irrefl 0)
    · rw [setenginescan_of_not_hasPair _ _ _ _ (Bool.eq_false_iff.mpr hpk)]
        at hp
      rcases mem_updateFirst _ _ _ p hp with hm | ⟨x, hx, hpx, rfl⟩
      · exact h p hm
      · obtain ⟨heid, hesc⟩ := (pairP_iff _ _ _).mp hpx
        obtain ⟨hpos, _, _⟩ := h x hx
        have hpos' : 0 < x.2.eid := hpos
        refine ⟨hpos', ?_, ?_⟩
        · intro _
          refine ⟨sc, hsc, rfl, hact, ?_⟩
          show sc.engine = some x.2.eid
          rw [heid]
          exact scanEngineId_pos_engine sc heng
        · intro h0
          have h0' : sc.id = 0 := h0
          rw [h0'] at hid
          exact absurd hid (lt_irrefl 0)
  · rw [if_neg hrel] at hp
    exact h p hp

theorem assign_slotOk (scans : List Scan) :
    ∀ (T : List Scan), (∀ s ∈ T, s ∈ scans) →
    ∀ c : Cache, (∀ p ∈ c, slotOk scans p) →
      ∀ p ∈ assign T c, slotOk scans p := by
  intro T
  induction T with
  | nil => intro _ c h; exact h
  | cons sc T ih =>
    intro hsub c h
    exact ih (fun s hs => hsub s (List.mem_cons_of_mem sc hs)) _
      (assignScan_slotOk scans c sc (hsub sc (List.mem_cons_self sc T)) h)

/-- C5: after a reconcile pass over well-formed inputs (positive engine
ids, slot records consistent with their keys, free slots Idle), a slot
carries a nonzero assigned scan id only if some scan of the snapshot has
exactly that id, an active stage 3..6 and a non-null engine reference
equal to the slot's engine id; otherwise the slot is Idle with assigned
scan id 0. -/
theorem C5_conservation (c : Cache) (engines : List Engine)
    (scans : List Scan)
    (hEid : ∀ e ∈ engines, 0 < e.id)
    (hcons : ∀ p ∈ c, p.2.eid = p.1.1)
    (hidle : ∀ p ∈ c, p.2.escanid = 0 → p.2.estate = "Idle") :
    ∀ p ∈ reconcile c engines scans,
      (p.2.escanid ≠ 0 →
        ∃ sc ∈ scans, sc.id = p.2.escanid ∧ activeStage sc.stageId = true ∧
          sc.engine = some p.2.eid) ∧
      (p.2.escanid = 0 → p.2.estate = "Idle") := by
  intro p hp
  have hbase := grow_prune_slotBase c engines hEid hcons hidle
  have hrel := release_slotOk scans _ hbase
  have hfinal := assign_slotOk scans scans (fun s hs => hs) _ hrel p hp
  exact ⟨hfinal.2.1, hfinal.2.2⟩

/-- C5 (witness): the conservation theorem applied to a one-slot cache of
engine 1 reconciled against an empty scan queue. -/
theorem C5_witness : slotFree.estate = "Idle" :=
  (C5_conservation [((1, 0), slotFree)] [engZero] [] (by decide) (by decide)
      (by decide) ((1, 0), slotFree) (by decide)).2 rfl

/- ------------------------------------------------------------------ -/
/- C10: uniqueness of assignments                                     -/
/- ------------------------------------------------------------------ -/

theorem uniq_prune (engines : List Engine) (c : Cache)
    (h : UniqueAssign c) : UniqueAssign (prune engines c) :=
  List.Pairwise.sublist ((List.filter_sublist c).map _) h

theorem uniq_append_zero (c : Cache) (p : Key × Slot)
    (hp : p.2.escanid = 0) (h : UniqueAssign c) :
    UniqueAssign (c ++ [p]) := by
  unfold UniqueAssign at h ⊢
  rw [show pairProj (c ++ [p]) = pairProj c ++ [(p.2.eid, p.2.escanid)] from
    by simp [pairProj]]
  rw [List.pairwise_append]
  refine ⟨h, List.pairwise_singleton _ _, ?_⟩
  intro a ha b hb
  rw [List.mem_singleton] at hb
  subst hb
  intro hcon
  rw [hp] at hcon
  exact hcon.2.2 hcon.2.1

theorem uniq_foldl_grow (e : Engine) (l : List Nat) :
    ∀ c : Cache, UniqueAssign c →
      UniqueAssign
        (l.foldl
          (fun acc j =>
            if hasKey acc (e.id, j + 1) then acc
            else acc ++ [((e.id, j + 1), newSlot e (j + 1))]) c) := by
  induction l with
  | nil => intro c h; exact h
  | cons i l ih =>
    intro c h
    rw [List.foldl_cons]
    apply ih
    by_cases hc : hasKey c (e.id, i + 1) = true
    · rw [if_pos hc]; exact h
    · rw [if_neg (by rw [Bool.eq_false_iff.mpr hc]; exact fun hcc => Bool.noConfusion hcc)]
      exact uniq_append_zero c _ rfl h

theorem uniq_grow (engines : List Engine) :
    ∀ c : Cache, UniqueAssign c → UniqueAssign (grow engines c) := by
  induction engines with
  | nil => intro c h; exact h
  | cons e es ih =>
    intro c h
    exact ih _ (uniq_foldl_grow e _ c h)

theorem uniq_release (S : List Scan) (c : Cache) (h : UniqueAssign c) :
    UniqueAssign (release S c) := by
  unfold UniqueAssign at h ⊢
  have hmap : pairProj (release S c)
      = c.map fun x =>
          if keepAssign S x.2 then (x.2.eid, x.2.escanid)
          else (x.2.eid, 0) := by
    rw [pairProj, release, List.map_map]
    apply List.map_congr_left
    intro x hx
    by_cases hk : keepAssign S x.2 = true
    · simp [hk]
    · simp [hk, resetSlot]
  rw [hmap]
  rw [pairProj] at h
  rw [List.pairwise_map] at h ⊢
  refine h.imp ?_
  intro a b hR
  by_cases hka : keepAssign S a.2 = true
  · by_cases hkb : keepAssign S b.2 = true
    · rw [if_pos hka, if_pos hkb]
      exact hR
    · rw [if_pos hka, if_neg hkb]
      intro hcon
      exact hcon.2.2 hcon.2.1
  · rw [if_neg hka]
    intro hcon
    exact hcon.2.2 rfl

theorem uniq_claim (c : Cache) (X E : Int) (st : String)
    (hnp : hasPair c X E = false) (h : UniqueAssign c) :
    UniqueAssign
      (updateFirst (pairP 0 E)
        (fun sl => { sl with escanid := X, estate := st }) c) := by
  induction c with
  | nil => exact h
  | cons y c ih =>
    have hy_pair : pairP X E y.2 = false :=
      pairP_eq_false_of_hasPair _ _ _ hnp y (List.mem_cons_self y c)
    have hnp' : hasPair c X E = false := by
      cases hc : hasPair c X E
      · rfl
      · obtain ⟨z, hz, hpz⟩ := List.any_eq_true.mp hc
        have hcontra : hasPair (y :: c) X E = true :=
          List.any_eq_true.mpr ⟨z, List.mem_cons_of_mem _ hz, hpz⟩
        rw [hcontra] at hnp
        exact Bool.noConfusion hnp
    unfold UniqueAssign at h ⊢
    rw [pairProj, List.map_cons, List.pairwise_cons] at h
    obtain ⟨hhead, htail⟩ := h
    by_cases hy : pairP 0 E y.2 = true
    · rw [show updateFirst (pairP 0 E)
            (fun sl => { sl with escanid := X, estate := st }) (y :: c)
          = (y.1, { y.2 with escanid := X, estate := st }) :: c from
        by simp [updateFirst, hy]]
      rw [pairProj, List.map_cons, List.pairwise_cons]
      constructor
      · intro b hb hcon
        obtain ⟨z, hz, rfl⟩ := List.mem_map.mp hb
        obtain ⟨hbe, hbx, _⟩ := hcon
        have heidy : y.2.eid = E := ((pairP_iff 0 E y.2).mp hy).1
        have hz_pair : pairP X E z.2 = true := by
          rw [pairP_iff]
          exact ⟨hbe.symm.trans heidy, hbx.symm⟩
        have hcontra : hasPair c X E = true :=
          List.any_eq_true.mpr ⟨z, hz, hz_pair⟩
        rw [hcontra] at hnp'
        exact Bool.noConfusion hnp'
      · exact htail
    · rw [show updateFirst (pairP 0 E)
            (fun sl => { sl with escanid := X, estate := st }) (y :: c)
          = y :: updateFirst (pairP 0 E)
              (fun sl => { sl with escanid := X, estate := st }) c from
        by simp [updateFirst, hy]]
      rw [pairProj, List.map_cons, List.pairwise_cons]
      constructor
      · intro b hb hcon
        obtain ⟨z, hz, rfl⟩ := List.mem_map.mp hb
        rcases mem_updateFirst _ _ _ z hz with hm | ⟨w, hw, hpw, rfl⟩
        · exact hhead _ (List.mem_map_of_mem _ hm) hcon
        · have heidw : w.2.eid = E := ((pairP_iff 0 E w.2).mp hpw).1
          obtain ⟨h1', h2', h3'⟩ := hcon
          have hy_true : pairP X E y.2 = true := by
            rw [pairP_iff]
            exact ⟨h1'.trans heidw, h2'⟩
          rw [hy_true] at hy_pair
          exact Bool.noConfusion hy_pair
      · exact ih hnp' htail

theorem uniq_assignScan (c : Cache) (sc : Scan) (h : UniqueAssign c) :
    UniqueAssign (assignScan c sc) := by
  rw [assignScan_eq]
  by_cases hrel : relevant sc = true
  · rw [if_pos hrel]
    by_cases hpk : hasPair c sc.id (scanEngineId sc) = true
    · rw [setenginescan_of_hasPair _ _ _ _ hpk]
      unfold UniqueAssign
      rw [pairProj_updateFirst_estate]
      exact h
    · rw [setenginescan_of_not_hasPair _ _ _ _ (Bool.eq_false_iff.mpr hpk)]
      exact uniq_claim c sc.id (scanEngineId sc) _
        (Bool.eq_false_iff.mpr hpk) h
  · rw [if_neg hrel]
    exact h

theorem uniq_assign (T : List Scan) :
    ∀ c : Cache, UniqueAssign c → UniqueAssign (assign T c) := by
  induction T with
  | nil => intro c h; exact h
  | cons sc T ih =>
    intro c h
    exact ih _ (uniq_assignScan c sc h)

/-- C10: the reconcile pass preserves uniqueness of assignments: if no
two slots of one engine carry the same nonzero scan id before the pass,
none do after it, however often a scan id repeats in the snapshot. -/
theorem C10_no_duplicate_assignment (c : Cache) (engines : List Engine)
    (scans : List Scan) (h : UniqueAssign c) :
    UniqueAssign (reconcile c engines scans) :=
  uniq_assign scans _
    (uniq_release scans _ (uniq_grow engines _ (uniq_prune engines c h)))

/-- C10 (witness): uniqueness after reconciling a one-slot cache with a
scan snapshot that targets the slot's engine. -/
theorem C10_witness :
    UniqueAssign (reconcile [((1, 0), slotFree)] [engZero] [scanOkA]) :=
  C10_no_duplicate_assignment _ _ _ (List.pairwise_singleton _ _)

/- ------------------------------------------------------------------ -/
/- C4: capacity bound                                                 -/
/- ------------------------------------------------------------------ -/

theorem length_filter_fst (l : Cache) (g : Int) :
    (l.filter fun p => p.1.1 == g).length
      = ((l.map Prod.fst).filter fun k => k.1 == g).length := by
  induction l with
  | nil => rfl
  | cons x l ih =>
    by_cases hx : (x.1.1 == g) = true
    · simp [List.filter_cons, hx, ih]
    · simp [List.filter_cons, hx, ih]

theorem hasKey_false_not_mem (c : Cache) (k : Key)
    (h : hasKey c k = false) : k ∉ c.map Prod.fst := by
  intro hm
  obtain ⟨p, hp, hpk⟩ := List.mem_map.mp hm
  have hcontra : hasKey c k = true :=
    List.any_eq_true.mpr ⟨p, hp, by simp [hpk]⟩
  rw [hcontra] at h
  exact Bool.noConfusion h

theorem nodup_keys_foldl_grow (e : Engine) (l : List Nat) :
    ∀ c : Cache, (c.map Prod.fst).Nodup →
      ((l.foldl
          (fun acc j =>
            if hasKey acc (e.id, j + 1) then acc
            else acc ++ [((e.id, j + 1), newSlot e (j + 1))]) c).map
        Prod.fst).Nodup := by
  induction l with
  | nil => intro c h; exact h
  | cons i l ih =>
    intro c h
    rw [List.foldl_cons]
    apply ih
    by_cases hc : hasKey c (e.id, i + 1) = true
    · rw [if_pos hc]; exact h
    · rw [if_neg (by rw [Bool.eq_false_iff.mpr hc]; exact fun hcc => Bool.noConfusion hcc)]
      rw [List.map_append, List.nodup_append]
      refine ⟨h, List.nodup_singleton _, ?_⟩
      intro a ha hb
      rw [show (([((e.id, i + 1), newSlot e (i + 1))] : Cache).map Prod.fst)
          = [(e.id, i + 1)] from rfl, List.mem_singleton] at hb
      subst hb
      exact hasKey_false_not_mem c _ (Bool.eq_false_iff.mpr hc) ha

theorem nodup_keys_grow (engines : List Engine) :
    ∀ c : Cache, (c.map Prod.fst).Nodup →
      ((grow engines c).map Prod.fst).Nodup := by
  induction engines with
  | nil => intro c h; exact h
  | cons e es ih =>
    intro c h
    exact ih _ (nodup_keys_foldl_grow e _ c h)

theorem nodup_keys_prune (engines : List Engine) (c : Cache)
    (h : (c.map Prod.fst).Nodup) :
    ((prune engines c).map Prod.fst).Nodup :=
  List.Nodup.sublist ((List.filter_sublist c).map _) h

theorem keysG_mem_iff (c : Cache) (engines : List Engine) (e : Engine)
    (hids : (engines.map Engine.id).Nodup)
    (hcap : ∀ e' ∈ engines, 0 ≤ e'.maxScans)
    (hidx : ∀ p ∈ c, 1 ≤ p.1.2)
    (he : e ∈ engines) (s : Nat) :
    (e.id, s) ∈ (grow engines (prune engines c)).map Prod.fst ↔
      1 ≤ s ∧ (s : Int) ≤ e.maxScans := by
  constructor
  · intro hm
    obtain ⟨p, hp, hpk⟩ := List.mem_map.mp hm
    rcases grow_mem engines (prune engines c) p hp
      with hm' | ⟨e', he', j, hj, rfl⟩
    · obtain ⟨hmc, hpred⟩ := List.mem_filter.mp hm'
      obtain ⟨e', he', hmatch⟩ := List.any_eq_true.mp hpred
      simp only [Bool.and_eq_true, beq_iff_eq, decide_eq_true_eq] at hmatch
      have h1 : p.1.1 = e.id := by rw [hpk]
      have h2 : p.1.2 = s := by rw [hpk]
      have hee : e' = e :=
        List.inj_on_of_nodup_map hids he' he (hmatch.1.trans h1)
      subst hee
      constructor
      · rw [← h2]; exact hidx p hmc
      · rw [← h2]; exact hmatch.2
    · rw [Prod.mk.injEq] at hpk
      obtain ⟨hid, hs⟩ := hpk
      have hee : e' = e := List.inj_on_of_nodup_map hids he' he hid
      subst hee
      have hcap' := hcap e' he'
      constructor
      · omega
      · omega
  · rintro ⟨h1, h2⟩
    have hcap' := hcap e he
    have hj : s - 1 < e.maxScans.toNat := by omega
    have hk := grow_hasKey engines (prune engines c) e (s - 1) he hj
    rw [show s - 1 + 1 = s from by omega] at hk
    obtain ⟨p, hp, hpk⟩ := List.any_eq_true.mp hk
    rw [beq_iff_eq] at hpk
    rw [← hpk]
    exact List.mem_map_of_mem _ hp

/-- C4: after a reconcile pass over well-formed inputs (distinct engine
ids, nonnegative reported capacities, cached slot indices at least 1,
distinct cache keys), every engine of the current list owns exactly
`maxScans` live slots, and no surviving slot belongs to an absent engine
or exceeds its engine's current capacity. -/
theorem C4_capacity_bound (c : Cache) (engines : List Engine)
    (scans : List Scan)
    (hids : (engines.map Engine.id).Nodup)
    (hcap : ∀ e ∈ engines, 0 ≤ e.maxScans)
    (hidx : ∀ p ∈ c, 1 ≤ p.1.2)
    (hkeys : (c.map Prod.fst).Nodup) :
    (∀ e ∈ engines,
      (((reconcile c engines scans).filter
          fun p => p.1.1 == e.id).length : Int) = e.maxScans) ∧
    (∀ p ∈ reconcile c engines scans, ∃ e ∈ engines,
      e.id = p.1.1 ∧ (p.1.2 : Int) ≤ e.maxScans) := by
  constructor
  · intro e he
    rw [length_filter_fst, reconcile_map_fst]
    have hKnodup : ((grow engines (prune engines c)).map Prod.fst).Nodup :=
      nodup_keys_grow engines _ (nodup_keys_prune engines c hkeys)
    have hfn : (((grow engines (prune engines c)).map Prod.fst).filter
        fun k => k.1 == e.id).Nodup := hKnodup.filter _
    have hLnodup : ((List.range e.maxScans.toNat).map
        fun j => ((e.id, j + 1) : Key)).Nodup := by
      refine List.Nodup.map ?_ (List.nodup_range _)
      intro a b hab
      rw [Prod.mk.injEq] at hab
      omega
    have hperm : List.Perm
        (((grow engines (prune engines c)).map Prod.fst).filter
          fun k => k.1 == e.id)
        ((List.range e.maxScans.toNat).map fun j => ((e.id, j + 1) : Key)) := by
      rw [List.perm_ext_iff_of_nodup hfn hLnodup]
      intro k
      rw [List.mem_filter]
      constructor
      · rintro ⟨hkK, hke⟩
        rw [beq_iff_eq] at hke
        obtain ⟨k1, k2⟩ := k
        simp only at hke
        subst hke
        obtain ⟨hk1, hk2⟩ :=
          (keysG_mem_iff c engines e hids hcap hidx he k2).mp hkK
        rw [List.mem_map]
        refine ⟨k2 - 1, List.mem_range.mpr (by omega), ?_⟩
        rw [Prod.mk.injEq]
        exact ⟨rfl, by omega⟩
      · intro hkL
        obtain ⟨j, hj, rfl⟩ := List.mem_map.mp hkL
        rw [List.mem_range] at hj
        have hcap' := hcap e he
        refine ⟨?_, by simp⟩
        exact (keysG_mem_iff c engines e hids hcap hidx he (j + 1)).mpr
          ⟨by omega, by omega⟩
    have hlen := hperm.length_eq
    rw [List.length_map, List.length_range] at hlen
    rw [hlen]
    have hcap' := hcap e he
    omega
  · intro p hp
    have hpred := reconcile_keys_good c engines scans p hp
    obtain ⟨e, he, hmatch⟩ := List.any_eq_true.mp hpred
    simp only [Bool.and_eq_true, beq_iff_eq, decide_eq_true_eq] at hmatch
    exact ⟨e, he, hmatch.1, hmatch.2⟩

/-- C4 (witness): the capacity bound applied to the empty cache and the
single zero-capacity engine: it owns exactly zero live slots. -/
theorem C4_witness :
    (((reconcile [] [engZero] []).filter
        fun p => p.1.1 == engZero.id).length : Int) = engZero.maxScans :=
  (C4_capacity_bound [] [engZero] [] (by decide) (by decide)
      (fun p hp => absurd hp (by simp)) (by decide)).1
    engZero (List.mem_cons_self engZero [])

end Cx
